import Mathlib

/-!
Verification of the cogent3 annotation prototype (sequence annotations,
coordinate maps, and the GFF/GenBank annotation stores).

The development shallowly embeds the two source modules
`cogent3/core/annotation.py` and `cogent3/core/annotation_db.py`.
The coordinate-map class (`cogent3.core.location.Map`) is not part of the
repository sources, so its operations are modelled from the specification,
as noted on each such definition.
-/

namespace Cogent3

/-- A span of a coordinate map.  Modelled from the spec: a `Span` is a
half-open interval over the parent axis with a `reverse` flag, or a "lost"
(gap) stretch of a given length that is present in the map but absent from
the underlying data. -/
inductive Sp where
  | lost (len : Nat)
  | seg (s e : Nat) (rev : Bool)
deriving DecidableEq, Repr

/-- Is this span a gap span? -/
def Sp.isLost : Sp → Bool
  | .lost _ => true
  | .seg _ _ _ => false

/-- The parent positions a span traverses, in traversal order; gap positions
are `none`.  A reversed span traverses its interval high-to-low. -/
def Sp.posns : Sp → List (Option Nat)
  | .lost n => List.replicate n none
  | .seg s e rev =>
      let fwd := (List.range' s (e - s)).map some
      if rev then fwd.reverse else fwd

/-- Well-formedness of a span relative to a parent length. -/
def Sp.wfb (L : Nat) : Sp → Bool
  | .lost _ => true
  | .seg s e _ => decide (s ≤ e) && decide (e ≤ L)

/-- Modelled from the spec: a coordinate `Map` is an ordered list of spans
over a parent axis of length `parent_length`. -/
structure CMap where
  spans : List Sp
  parent_length : Nat
deriving DecidableEq, Repr

/-- Well-formed map: every span lies within the parent axis. -/
def CMap.wfb (m : CMap) : Bool := m.spans.all (Sp.wfb m.parent_length)

/-- The full child-frame position list of a map (gaps as `none`),
obtained by concatenating its spans' traversals. -/
def CMap.posns (m : CMap) : List (Option Nat) := (m.spans.map Sp.posns).flatten

/-- The non-gap parent positions of a map, in traversal order. -/
def CMap.content (m : CMap) : List Nat := m.posns.filterMap id

/-- Modelled from the spec: `useful` holds iff the map's total non-gap
length is positive. -/
def CMap.useful (m : CMap) : Bool := !m.content.isEmpty

/-- The map's `start`: the minimum parent coordinate among its non-gap
spans (0 for maps with no content; the sources only read it on useful
maps). -/
def CMap.mstart (m : CMap) : Nat :=
  match m.content with
  | [] => 0
  | p :: ps => ps.foldl min p

/-- The map's `end`: one past the maximum parent coordinate among its
non-gap spans (0 for maps with no content). -/
def CMap.mend (m : CMap) : Nat :=
  match m.content with
  | [] => 0
  | p :: ps => ps.foldl max p + 1

/-- Modelled from the spec: `complete` holds iff the map fully covers its
declared extent, i.e. no span of the map is a gap (a gap being a region of
the declared extent absent from the underlying data). -/
def CMap.complete (m : CMap) : Bool := m.spans.all (fun sp => !sp.isLost)

/-- Modelled from the spec: `without_gaps` drops the lost spans of a map. -/
def CMap.withoutGaps (m : CMap) : CMap :=
  ⟨m.spans.filter (fun sp => !sp.isLost), m.parent_length⟩

/-- Modelled from the spec and the repository's `TestMapSpans.test_map`:
reversing a span relative to a parent length mirrors its coordinates about
the parent length and flips its reverse flag. -/
def Sp.reversedRelativeTo (L : Nat) : Sp → Sp
  | .lost n => .lost n
  | .seg s e rev => .seg (L - e) (L - s) (!rev)

/-- Modelled from the spec and the repository's `TestMapSpans.test_map`:
`nucleic_reversed` mirrors every non-gap span about the parent length,
flipping its reverse flag, keeping the span list order (the test pins
`Map([Span(20,30), Span(40,50)], 100).nucleic_reversed()` to
`[Span(70,80,rev), Span(50,60,rev)]`). -/
def CMap.nucleicReversed (m : CMap) : CMap :=
  ⟨m.spans.map (Sp.reversedRelativeTo m.parent_length), m.parent_length⟩

/-- One-position span used when re-emitting a composed or inverted map as a
span list: gaps become unit lost spans and positions unit forward spans. -/
def spanOfPosn : Option Nat → Sp
  | none => .lost 1
  | some p => .seg p (p + 1) false

/-- Modelled from the spec: re-emit a child-frame position list as a span
list (the denotation is exact; clipped regions appear as unit spans). -/
def spansOfPosns (ps : List (Option Nat)) : List Sp := ps.map spanOfPosn

/-- The parent position a map sends child position `j` to (`none` for a gap
or an out-of-range child position). -/
def CMap.childPosn (m : CMap) (j : Nat) : Option Nat := m.posns.getD j none

/-- Modelled from the spec: map composition `outer[inner]`.  Each child
position of `inner` is pushed through `outer`; positions falling on gaps of
either map (or outside `outer`'s child frame) are re-flagged as gaps.  The
result's parent is `outer`'s parent. -/
def CMap.compose (outer inner : CMap) : CMap :=
  ⟨spansOfPosns (inner.posns.map (fun o => o.bind outer.childPosn)),
   outer.parent_length⟩

/-- The index of the first child position of `ps` holding parent position
`p`. -/
def idxWithin (ps : List (Option Nat)) (p : Nat) : Option Nat :=
  match ps with
  | [] => none
  | o :: rest => if o == some p then some 0 else (idxWithin rest p).map (· + 1)

/-- Modelled from the spec: `inverse()` swaps the parent and child roles of
a map: parent position `p` is sent to the child position holding it, and to
a gap when the map does not cover `p`. -/
def CMap.inverse (m : CMap) : CMap :=
  ⟨spansOfPosns ((List.range m.parent_length).map (fun p => idxWithin m.posns p)),
   m.posns.length⟩

/-- The map of a slice `[a, b)` of a container of length `L`, as produced
by `as_map` for a slice index. -/
def sliceCMap (a b L : Nat) : CMap := ⟨[Sp.seg a b false], L⟩

/-- Collect a sorted position list into maximal contiguous forward spans;
`s`,`e` hold the run accumulated so far. -/
def mergeFrom (s e : Nat) : List Nat → List Sp
  | [] => [Sp.seg s e false]
  | p :: ps => if p == e then mergeFrom s (e + 1) ps
               else Sp.seg s e false :: mergeFrom p (p + 1) ps

/-- Group a sorted position list into maximal contiguous forward spans. -/
def mergeRuns : List Nat → List Sp
  | [] => []
  | p :: ps => mergeFrom p (p + 1) ps

/-- Modelled from the spec: `covered()` unions the spans of a map into one
covering, gap-free map with overlaps collapsed. -/
def CMap.covered (m : CMap) : CMap :=
  ⟨mergeRuns ((List.range m.parent_length).filter (fun p => m.content.contains p)),
   m.parent_length⟩

/-! ## Annotation store (`cogent3/core/annotation_db.py` and the legacy
store classes at the bottom of `cogent3/core/annotation.py`) -/

/-- Python truthiness of an optional string argument: `None` and the empty
string are falsy (`if seq_name:` / `any([bio_type, identifier])`). -/
def truthy : Option String → Bool
  | none => false
  | some s => !(s == "")

/-- Errors surfaced by the store embedding.  `noArguments` is the
`ValueError("no arguments provided")` guard; `emptyTable` models the legacy
stores' crash when reading the first row of an empty table. -/
inductive DbErr where
  | noArguments
  | emptyTable
deriving DecidableEq, Repr

/-- One WHERE-clause of a generated SQL query, in the order the sources
append them. -/
inductive Clause where
  | seqIdEq (v : String)
  | typeEq (v : String)
  | attrLike (v : String)
  | locusIdEq (v : String)
  | locusTagLike (v : String)
  | startGe (v : Int)
  | endLt (v : Int)
  | endLe (v : Int)
deriving DecidableEq, Repr

/-- The clause contributed by one optional truthy string argument
(`if seq_name: clauses.append(...)`). -/
def optClause (f : String → Clause) : Option String → List Clause
  | none => []
  | some s => if s == "" then [] else [f s]

/-- The range clauses of `_make_sql_query` in `annotation_db.py`:
`Start >= ? AND End < ?` when both bounds are given, a single comparison
when only one is. -/
def rangeClauses (start stop : Option Int) : List Clause :=
  match start, stop with
  | some s, some e => [.startGe s, .endLt e]
  | some s, none => [.startGe s]
  | none, some e => [.endLt e]
  | none, none => []

/-- `GffAnnotationDb._make_sql_query` (annotation_db.py): raises unless one
of `bio_type`/`identifier` is truthy, then appends the SeqID, Type,
Attributes-LIKE and range clauses in order. -/
def makeSqlQueryGffDb (seq_name bio_type identifier : Option String)
    (start stop : Option Int) : Except DbErr (List Clause) :=
  if truthy bio_type || truthy identifier then
    .ok (optClause Clause.seqIdEq seq_name ++ optClause Clause.typeEq bio_type ++
         optClause Clause.attrLike identifier ++ rangeClauses start stop)
  else .error .noArguments

/-- `GenbankAnnotationDb._make_sql_query` (annotation_db.py): same guard,
with LocusID / Type / Locus_Tag-LIKE columns. -/
def makeSqlQueryGenbankDb (seq_name bio_type identifier : Option String)
    (start stop : Option Int) : Except DbErr (List Clause) :=
  if truthy bio_type || truthy identifier then
    .ok (optClause Clause.locusIdEq seq_name ++ optClause Clause.typeEq bio_type ++
         optClause Clause.locusTagLike identifier ++ rangeClauses start stop)
  else .error .noArguments

/-- Does the first character list begin with the second? -/
def listHasPre : List Char → List Char → Bool
  | _, [] => true
  | [], _ :: _ => false
  | c :: cs, d :: ds => c == d && listHasPre cs ds

/-- Does the first character list contain the second as a contiguous
stretch?  This is SQL `LIKE '%needle%'` on the embedded strings. -/
def listHasSub (hay needle : List Char) : Bool :=
  match hay with
  | [] => needle.isEmpty
  | _ :: rest => listHasPre hay needle || listHasSub rest needle

/-- SQL `column LIKE '%needle%'` substring matching. -/
def likeSub (hay needle : String) : Bool := listHasSub hay.toList needle.toList

/-- A row of the GFF table.  `AttrID` is the `ID` entry of the parsed
`Attributes` JSON blob (`json.loads(row["Attributes"])["ID"]`), carried
alongside the raw blob the LIKE filter runs on. -/
structure GffRow where
  SeqID : String
  Source : String
  Typ : String
  Start : Int
  End : Int
  Score : String
  Strand : String
  Phase : String
  Attributes : String
  AttrID : String
deriving DecidableEq, Repr

/-- A row of the GENBANK table (annotation_db.py layout). -/
structure GbRow where
  LocusID : String
  Typ : String
  Spans : List (Int × Int)
  Locus_Tag : String
  Start : Int
  End : Int
  Strand : Int
deriving DecidableEq, Repr

/-- SQLite evaluation of one clause against a GFF row. -/
def gffSat (r : GffRow) : Clause → Bool
  | .seqIdEq v => r.SeqID == v
  | .typeEq v => r.Typ == v
  | .attrLike v => likeSub r.Attributes v
  | .startGe v => decide (v ≤ r.Start)
  | .endLt v => decide (r.End < v)
  | .endLe v => decide (r.End ≤ v)
  | .locusIdEq _ => false
  | .locusTagLike _ => false

/-- SQLite evaluation of one clause against a GENBANK row. -/
def gbSat (r : GbRow) : Clause → Bool
  | .locusIdEq v => r.LocusID == v
  | .typeEq v => r.Typ == v
  | .locusTagLike v => likeSub r.Locus_Tag v
  | .startGe v => decide (v ≤ r.Start)
  | .endLt v => decide (r.End < v)
  | .endLe v => decide (r.End ≤ v)
  | .seqIdEq _ => false
  | .attrLike _ => false

/-- `GffAnnotationDb.db_query` (annotation_db.py): build the query, then
return the rows satisfying the conjunction of its clauses. -/
def dbQueryGffDb (rows : List GffRow) (seq_name bio_type identifier : Option String)
    (start stop : Option Int) : Except DbErr (List GffRow) :=
  match makeSqlQueryGffDb seq_name bio_type identifier start stop with
  | .error e => .error e
  | .ok cs => .ok (rows.filter (fun r => cs.all (gffSat r)))

/-- `GenbankAnnotationDb.db_query` (annotation_db.py). -/
def dbQueryGenbankDb (rows : List GbRow) (seq_name bio_type identifier : Option String)
    (start stop : Option Int) : Except DbErr (List GbRow) :=
  match makeSqlQueryGenbankDb seq_name bio_type identifier start stop with
  | .error e => .error e
  | .ok cs => .ok (rows.filter (fun r => cs.all (gbSat r)))

/-- The guard and clause list of the legacy `GffAnnotationDb._make_sql_query`
(annotation.py): `SeqID == ? AND Start >= ? AND End <= ?` always present
(the SeqID value being spliced in by `db_query`), then optional Type and
Attributes-LIKE clauses; `End` is compared right-inclusively. -/
def makeSqlQueryGffLegacy (name : String) (start stop : Int)
    (bio_type identifier : Option String) : Except DbErr (List Clause) :=
  if truthy bio_type || truthy identifier then
    .ok ([Clause.seqIdEq name, Clause.startGe start, Clause.endLe stop] ++
         optClause Clause.typeEq bio_type ++ optClause Clause.attrLike identifier)
  else .error .noArguments

/-- The legacy `GenbankAnnotationDb._make_sql_query` (annotation.py):
`LocusID == ?` plus optional Type and Locus_Tag-LIKE clauses; the start/end
arguments are accepted but contribute no clause (the range lines are
commented out in the source). -/
def makeSqlQueryGbLegacy (name : String) (_start _stop : Int)
    (bio_type identifier : Option String) : Except DbErr (List Clause) :=
  if truthy bio_type || truthy identifier then
    .ok ([Clause.locusIdEq name] ++
         optClause Clause.typeEq bio_type ++ optClause Clause.locusTagLike identifier)
  else .error .noArguments

/-- Legacy `GffAnnotationDb.db_query` (annotation.py): builds the query,
reads the first row's SeqID as the implicit sequence name, then filters. -/
def dbQueryGffLegacy (rows : List GffRow) (start stop : Int)
    (bio_type identifier : Option String) : Except DbErr (List GffRow) :=
  if truthy bio_type || truthy identifier then
    match rows.head? with
    | none => .error .emptyTable
    | some r0 =>
      match makeSqlQueryGffLegacy r0.SeqID start stop bio_type identifier with
      | .error e => .error e
      | .ok cs => .ok (rows.filter (fun r => cs.all (gffSat r)))
  else .error .noArguments

/-- Legacy `GenbankAnnotationDb.db_query` (annotation.py); the start/stop
arguments are threaded through but ignored by the query builder. -/
def dbQueryGbLegacy (rows : List GbRow) (start stop : Int)
    (bio_type identifier : Option String) : Except DbErr (List GbRow) :=
  if truthy bio_type || truthy identifier then
    match rows.head? with
    | none => .error .emptyTable
    | some r0 =>
      match makeSqlQueryGbLegacy r0.LocusID start stop bio_type identifier with
      | .error e => .error e
      | .ok cs => .ok (rows.filter (fun r => cs.all (gbSat r)))
  else .error .noArguments

/-- The grouped-feature descriptor `{name, type, spans}` produced by
`find_records` (the `R` TypedDict of annotation_db.py). -/
structure Rec where
  name : String
  typ : String
  spans : List (Int × Int)
deriving DecidableEq, Repr

/-- One step of the GFF `find_records` grouping loop: a new identifier
opens a descriptor at the end of the (insertion-ordered) dictionary, a
repeated identifier appends the row's `(Start, End)` pair to its
descriptor's span list. -/
def upsertGff (acc : List (String × Rec)) (row : GffRow) : List (String × Rec) :=
  match acc.lookup row.AttrID with
  | none => acc ++ [(row.AttrID, ⟨row.AttrID, row.Typ, [(row.Start, row.End)]⟩)]
  | some _ =>
      acc.map (fun kr =>
        if kr.1 == row.AttrID then
          (kr.1, { kr.2 with spans := kr.2.spans ++ [(row.Start, row.End)] })
        else kr)

/-- `GffAnnotationDb.find_records` (annotation_db.py): run the query
(without the strand argument, as the source drops it), fold the rows into
the identifier-keyed dictionary, and return its values. -/
def findRecordsGffDb (rows : List GffRow) (seq_name bio_type identifier : Option String)
    (start stop : Option Int) : Except DbErr (List Rec) :=
  match dbQueryGffDb rows seq_name bio_type identifier start stop with
  | .error e => .error e
  | .ok qrows => .ok ((qrows.foldl upsertGff []).map Prod.snd)

/-- One step of the GenBank `find_records` loop: the dictionary key is
`locus_tag + type` and the descriptor is assigned unconditionally, so a
repeated key keeps its first-seen position but is overwritten with the
later row's data. -/
def upsertGb (acc : List (String × Rec)) (row : GbRow) : List (String × Rec) :=
  match acc.lookup (row.Locus_Tag ++ row.Typ) with
  | none => acc ++ [(row.Locus_Tag ++ row.Typ, ⟨row.Locus_Tag, row.Typ, row.Spans⟩)]
  | some _ =>
      acc.map (fun kr =>
        if kr.1 == row.Locus_Tag ++ row.Typ then
          (kr.1, ⟨row.Locus_Tag, row.Typ, row.Spans⟩)
        else kr)

/-- `GenbankAnnotationDb.find_records` (annotation_db.py). -/
def findRecordsGenbankDb (rows : List GbRow) (seq_name bio_type identifier : Option String)
    (start stop : Option Int) : Except DbErr (List Rec) :=
  match dbQueryGenbankDb rows seq_name bio_type identifier start stop with
  | .error e => .error e
  | .ok qrows => .ok ((qrows.foldl upsertGb []).map Prod.snd)

/-! ## Features and annotatable containers (`cogent3/core/annotation.py`) -/

/-- A feature as carried on a container's annotation list: its `type` and
`name` qualifiers plus its coordinate map relative to the container. -/
structure Feat where
  ftype : String
  fname : String
  fmap : CMap
deriving DecidableEq, Repr

/-- An annotatable container: its length and its attached features. -/
structure Container where
  length : Nat
  annots : List Feat
deriving DecidableEq, Repr

/-- `_Feature.remapped_to(grandparent, gmap)`: the feature reprojected
through `gmap`, i.e. its map becomes `gmap[self.map]`; type and name are
carried over from the original. -/
def Feat.remappedTo (f : Feat) (gmap : CMap) : Feat :=
  { f with fmap := gmap.compose f.fmap }

/-- `_Annotatable._sliced_annotations(new, slice)` for a slice `[a, b)`:
with the slice's map and its inverse in hand, keep each useful annotation
whose map's covering span overlaps the slice, remap it through the inverse
map, and keep the result only if it is still useful. -/
def slicedAnnotations (c : Container) (a b : Nat) : List Feat :=
  if c.annots.isEmpty then []
  else
    let slicemap := sliceCMap a b c.length
    let newmap := slicemap.inverse
    if slicemap.useful then
      c.annots.filterMap (fun f =>
        if f.fmap.useful then
          if f.fmap.mstart < slicemap.mend && slicemap.mstart < f.fmap.mend then
            let f2 := f.remappedTo newmap
            if f2.fmap.useful then some f2 else none
          else none
        else none)
    else []

/-- `_Annotatable.__getitem__` for a slice `[a, b)`: the sliced container
(of the slice map's length) with the surviving remapped annotations
attached. -/
def containerGetItem (c : Container) (a b : Nat) : Container :=
  ⟨(sliceCMap a b c.length).content.length, slicedAnnotations c a b⟩

/-! ### Ownership state for attach/detach -/

/-- The ownership-relevant state of one feature: the id of its parent
container and its `attached` flag. -/
structure FeatOwn where
  parentId : Nat
  attached : Bool
deriving DecidableEq, Repr

/-- The mutable state read and written by `attach_annotations` /
`detach_annotations`: the per-feature ownership records (indexed by
feature id) and the annotation list of the container under consideration. -/
structure OwnState where
  feats : List FeatOwn
  annotsList : List Nat
deriving DecidableEq, Repr

/-- Ownership errors: `notBelongHere` is `ValueError("doesn't belong
here")`, `alreadyAttached` is `ValueError("already attached")`,
`notLiveHere` is `ValueError("doesn't live here")`. -/
inductive OwnErr where
  | notBelongHere
  | alreadyAttached
  | notLiveHere
  | rangeIncomplete
deriving DecidableEq, Repr

/-- Look a feature's ownership record up by id. -/
def getFeat (st : OwnState) (i : Nat) : FeatOwn := st.feats.getD i ⟨0, false⟩

/-- The first check loop of `attach_annotations`: raise for the first
feature whose parent is not this container or which is already attached. -/
def checkAttach (selfId : Nat) (st : OwnState) : List Nat → Option OwnErr
  | [] => none
  | i :: rest =>
      if !((getFeat st i).parentId == selfId) then some .notBelongHere
      else if (getFeat st i).attached then some .alreadyAttached
      else checkAttach selfId st rest

/-- Set one feature's `attached` flag. -/
def setAttachedFlag (feats : List FeatOwn) (i : Nat) (b : Bool) : List FeatOwn :=
  feats.mapIdx (fun j f => if j == i then { f with attached := b } else f)

/-- `_Annotatable.attach_annotations(annots)`: first check every feature of
the batch, raising before any mutation; only then extend the annotation
list with the whole batch and set every batch feature's `attached` flag.
The pair returned is (call outcome, state at exit). -/
def attachAnnotations (selfId : Nat) (st : OwnState) (batch : List Nat) :
    Except OwnErr Unit × OwnState :=
  match checkAttach selfId st batch with
  | some e => (.error e, st)
  | none =>
      (.ok (),
       { st with annotsList := st.annotsList ++ batch,
                 feats := batch.foldl (fun fs i => setAttachedFlag fs i true) st.feats })

/-- The check loop of `detach_annotations`: raise for the first feature
whose parent is not this container; the `attached` flag is not checked. -/
def checkDetach (selfId : Nat) (st : OwnState) : List Nat → Option OwnErr
  | [] => none
  | i :: rest =>
      if !((getFeat st i).parentId == selfId) then some .notLiveHere
      else checkDetach selfId st rest

/-- `_Annotatable.detach_annotations(annots)`: after the parent check, each
batch feature that is currently attached is removed from the annotation
list (first occurrence) and its flag cleared; an unattached feature is
silently skipped. -/
def detachAnnotations (selfId : Nat) (st : OwnState) (batch : List Nat) :
    Except OwnErr Unit × OwnState :=
  match checkDetach selfId st batch with
  | some e => (.error e, st)
  | none =>
      (.ok (),
       batch.foldl (fun s i =>
         if (getFeat s i).attached then
           { s with annotsList := s.annotsList.erase i,
                    feats := setAttachedFlag s.feats i false }
         else s) st)

/-! ### Shell-style wildcard matching (`fnmatch` on a POSIX platform:
case-sensitive, with `*`, `?` and `[...]` classes) -/

/-- Parse the items of a `[...]` character class, up to the closing `]`:
`a-b` ranges and single characters (as degenerate ranges); returns the
items and the pattern remainder, or `none` for an unterminated class. -/
def parseClassItems : List Char → Option (List (Char × Char) × List Char)
  | [] => none
  | ']' :: rest => some ([], rest)
  | a :: '-' :: b :: rest =>
      if b == ']' then some ([(a, a), ('-', '-')], rest)
      else (parseClassItems rest).map (fun ir => ((a, b) :: ir.1, ir.2))
  | a :: rest => (parseClassItems rest).map (fun ir => ((a, a) :: ir.1, ir.2))

/-- Parse a full character class body, with an optional leading `!`
negation. -/
def parseClass (l : List Char) : Option (Bool × List (Char × Char) × List Char) :=
  match l with
  | '!' :: ps => (parseClassItems ps).map (fun ir => (true, ir.1, ir.2))
  | ps => (parseClassItems ps).map (fun ir => (false, ir.1, ir.2))

/-- One token of a compiled glob pattern. -/
inductive GTok where
  | lit (c : Char)
  | anyOne
  | anySeq
  | cls (neg : Bool) (items : List (Char × Char))
deriving DecidableEq, Repr

/-- Compile a glob pattern into tokens; an unterminated `[` class is kept
as literal characters.  The fuel argument (instantiated with the pattern
length, which each step strictly consumes) makes the recursion
structural. -/
def tokenizeAux : Nat → List Char → List GTok
  | 0, _ => []
  | _, [] => []
  | fuel + 1, c :: ps =>
      if c == '*' then GTok.anySeq :: tokenizeAux fuel ps
      else if c == '?' then GTok.anyOne :: tokenizeAux fuel ps
      else if c == '[' then
        match parseClass ps with
        | some (neg, items, rest) => GTok.cls neg items :: tokenizeAux fuel rest
        | none => GTok.lit '[' :: ps.map GTok.lit
      else GTok.lit c :: tokenizeAux fuel ps

/-- Compile a glob pattern into tokens. -/
def tokenizePat (l : List Char) : List GTok := tokenizeAux l.length l

/-- Match a compiled glob pattern against a character list; the fuel
(instantiated with a bound on the total length, which every step strictly
decreases) makes the recursion structural. -/
def gmatchF : Nat → List GTok → List Char → Bool
  | 0, _, _ => false
  | _, [], [] => true
  | _, [], _ :: _ => false
  | fuel + 1, .anySeq :: ts, [] => gmatchF fuel ts []
  | fuel + 1, .anySeq :: ts, c :: cs =>
      gmatchF fuel ts (c :: cs) || gmatchF fuel (.anySeq :: ts) cs
  | fuel + 1, .anyOne :: ts, _ :: cs => gmatchF fuel ts cs
  | _, .anyOne :: _, [] => false
  | fuel + 1, .lit p :: ts, c :: cs => p == c && gmatchF fuel ts cs
  | _, .lit _ :: _, [] => false
  | fuel + 1, .cls neg items :: ts, c :: cs =>
      (neg != items.any (fun ab => ab.1 ≤ c && c ≤ ab.2)) && gmatchF fuel ts cs
  | _, .cls _ _ :: _, [] => false

/-- Match a compiled glob pattern against a character list. -/
def gmatch (ts : List GTok) (cs : List Char) : Bool :=
  gmatchF (ts.length + cs.length + 1) ts cs

/-- `fnmatch.fnmatch(nm, pat)` on POSIX: case-sensitive shell-style
wildcard matching. -/
def fnmatchB (nm pat : String) : Bool := gmatch (tokenizePat pat.toList) nm.toList

/-! ### Annotation trees and pattern search -/

/-- A feature together with its own sub-annotations (an
`AnnotatableFeature` carrying its annotation list). -/
inductive FTree where
  | node (ftype fname : String) (subs : List FTree)

/-- The `type` qualifier of a feature node. -/
def FTree.typeOf : FTree → String
  | .node t _ _ => t

/-- The `name` qualifier of a feature node. -/
def FTree.nameOf : FTree → String
  | .node _ n _ => n

/-- The sub-annotation list of a feature node. -/
def FTree.subsOf : FTree → List FTree
  | .node _ _ s => s

/-- The match test of `get_annotations_matching`:
`fnmatch(annotation.type, annotation_type) and (name is None or
fnmatch(annotation.name, name))`. -/
def matchesPat (t : FTree) (ty : String) (nm : Option String) : Bool :=
  fnmatchB t.typeOf ty &&
    (match nm with
     | none => true
     | some n => fnmatchB t.nameOf n)

/-- `_Annotatable.get_annotations_matching(annotation_type, name,
extend_query)` run over an annotation list: each annotation contributes
itself when it matches, and — whenever `extend_query` is set, matched or
not — the recursive search of its own sub-annotations, in that order. -/
def gamList (ty : String) (nm : Option String) (ext : Bool) : List FTree → List FTree
  | [] => []
  | .node t n subs :: rest =>
      (if matchesPat (.node t n subs) ty nm then [FTree.node t n subs] else []) ++
      (if ext then gamList ty nm ext subs else []) ++ gamList ty nm ext rest

/-- All annotations reachable from a list (each node before its
descendants, siblings in order): the search space of a recursive query. -/
def dscList : List FTree → List FTree
  | [] => []
  | .node t n subs :: rest => FTree.node t n subs :: (dscList subs ++ dscList rest)

/-- The spec's reading of a recursive query: sub-annotations are searched
only beneath features that themselves matched. -/
def gamListSpecRead (ty : String) (nm : Option String) : List FTree → List FTree
  | [] => []
  | .node t n subs :: rest =>
      (if matchesPat (.node t n subs) ty nm then
        FTree.node t n subs :: gamListSpecRead ty nm subs
       else []) ++ gamListSpecRead ty nm rest

/-! ### Region covering all -/

/-- The distinct-type accumulation loop of `get_region_covering_all`:
`if annot.type not in annotation_types: annotation_types.append(...)`. -/
def distinctTypes (feats : List Feat) : List String :=
  feats.foldl (fun acc f => if acc.contains f.ftype then acc else acc ++ [f.ftype]) []

/-- `_Annotatable.get_region_covering_all(annotations)`: concatenate the
features' spans, collapse them with `covered()`, and return one synthetic
feature with `type="region"` and the comma-joined distinct input types as
its `name`. -/
def regionCoveringAll (c : Container) (feats : List Feat) : Feat :=
  ⟨"region", String.intercalate "," (distinctTypes feats),
   (CMap.mk ((feats.map (fun f => f.fmap.spans)).flatten) c.length).covered⟩

/-! ### Reverse-complement propagation -/

/-- `_Annotatable._annotations_nucleic_reversed_on(new)` packaged as the
new container: every attached feature is rebuilt from the original (so
`type` and `name` carry over) with its map passed through
`nucleic_reversed()`, and attached to the equal-length new container. -/
def nucleicReversedOn (c : Container) : Container :=
  ⟨c.length, c.annots.map (fun f => ⟨f.ftype, f.fname, f.fmap.nucleicReversed⟩)⟩

/-! ### Feature resolution against the base sequence -/

/-- A feature viewed against its base container: the base sequence and the
feature's `base_map` on it. -/
structure BaseFeat where
  base : String
  base_map : CMap
deriving DecidableEq, Repr

/-- Modelled from the spec: fetching `base[map]`.  A gap span of the map
has no underlying data, so a map containing gap spans cannot be resolved
and fails with the range-incompleteness error; otherwise the fragment is
the base characters at the map's content positions, in traversal order. -/
def fetchFragment (seq : String) (m : CMap) : Except OwnErr String :=
  if m.spans.any Sp.isLost then .error .rangeIncomplete
  else .ok (String.mk (m.content.map (fun p => seq.toList.getD p '?')))

/-- `_Feature.get_slice(complete)`: starting from `base_map`, gaps are
dropped only when `complete` is false and the map is not complete, and the
(possibly reduced) map is resolved against the base. -/
def getSliceF (f : BaseFeat) (complete : Bool) : Except OwnErr String :=
  let m := if !(complete || f.base_map.complete) then f.base_map.withoutGaps
           else f.base_map
  fetchFragment f.base m

deriving instance DecidableEq for Except

/-! ## Claim C1: the invalid-query guard -/

/-- C1: for every store query, supplying neither a truthy `bio_type` nor a
truthy `identifier` fails with the invalid-query `ValueError`, regardless
of the other filters, and supplying at least one of them never raises that
error: in the annotation_db stores the query then succeeds, and in the
legacy annotation.py stores the invalid-query error cannot occur. -/
theorem C1_invalid_query_guard
    (rows : List GffRow) (grows : List GbRow) (sn bt idn : Option String)
    (st en : Option Int) (lst len : Int) (lrows : List GffRow) (lgrows : List GbRow) :
    ((dbQueryGffDb rows sn bt idn st en).isOk = (truthy bt || truthy idn)) ∧
    ((dbQueryGenbankDb grows sn bt idn st en).isOk = (truthy bt || truthy idn)) ∧
    (dbQueryGffDb rows sn bt idn st en = .error .noArguments ↔
      (truthy bt || truthy idn) = false) ∧
    (dbQueryGenbankDb grows sn bt idn st en = .error .noArguments ↔
      (truthy bt || truthy idn) = false) ∧
    (dbQueryGffLegacy lrows lst len bt idn = .error .noArguments ↔
      (truthy bt || truthy idn) = false) ∧
    (dbQueryGbLegacy lgrows lst len bt idn = .error .noArguments ↔
      (truthy bt || truthy idn) = false) := by
  cases hg : (truthy bt || truthy idn) with
  | true =>
      refine ⟨?_, ?_, ?_, ?_, ?_, ?_⟩
      · simp [dbQueryGffDb, makeSqlQueryGffDb, hg, Except.isOk, Except.toBool]
      · simp [dbQueryGenbankDb, makeSqlQueryGenbankDb, hg, Except.isOk, Except.toBool]
      · simp [dbQueryGffDb, makeSqlQueryGffDb, hg]
      · simp [dbQueryGenbankDb, makeSqlQueryGenbankDb, hg]
      · cases lrows <;>
          simp [dbQueryGffLegacy, makeSqlQueryGffLegacy, hg]
      · cases lgrows <;>
          simp [dbQueryGbLegacy, makeSqlQueryGbLegacy, hg]
  | false =>
      refine ⟨?_, ?_, ?_, ?_, ?_, ?_⟩ <;>
        simp [dbQueryGffDb, dbQueryGenbankDb, dbQueryGffLegacy, dbQueryGbLegacy,
              makeSqlQueryGffDb, makeSqlQueryGenbankDb, makeSqlQueryGffLegacy,
              makeSqlQueryGbLegacy, hg, Except.isOk, Except.toBool]

/-! ## Claim C2: range-filter semantics -/

/-- C2 counterexample: in the legacy annotation.py GFF store a query with
both bounds `start=0, end=5000` SELECTS a CDS row whose `End` equals 5000
(the generated clause is `End <= ?`), although the claim requires a row
with `End` equal to the supplied end to be excluded. -/
theorem C2_counterexample :
    dbQueryGffLegacy [⟨"seq1", "src", "CDS", 0, 5000, ".", "+", ".", "ID=X", "X"⟩]
        0 5000 (some "CDS") none =
      Except.ok [⟨"seq1", "src", "CDS", 0, 5000, ".", "+", ".", "ID=X", "X"⟩] ∧
    ¬((5000 : Int) < 5000) := by
  exact ⟨by decide, by decide⟩

/-- C2 (amended): in the annotation_db.py stores (GFF and GenBank) the
claim holds as stated: with both bounds the query equals the unbounded
query filtered by `Start >= start AND End < end` (right-exclusive), and
with a single bound only that comparison is applied.  The legacy
annotation.py GFF store instead compares `End <= end` (right-inclusive,
with mandatory bounds), and the legacy GenBank store applies no range
constraint at all. -/
theorem C2_range_filters (rows : List GffRow) (grows : List GbRow)
    (sn bt idn : Option String) (s e : Int) :
    (dbQueryGffDb rows sn bt idn (some s) (some e) =
      (dbQueryGffDb rows sn bt idn none none).map
        (fun l => l.filter (fun r => decide (s ≤ r.Start) && decide (r.End < e)))) ∧
    (dbQueryGffDb rows sn bt idn (some s) none =
      (dbQueryGffDb rows sn bt idn none none).map
        (fun l => l.filter (fun r => decide (s ≤ r.Start)))) ∧
    (dbQueryGffDb rows sn bt idn none (some e) =
      (dbQueryGffDb rows sn bt idn none none).map
        (fun l => l.filter (fun r => decide (r.End < e)))) ∧
    (dbQueryGenbankDb grows sn bt idn (some s) (some e) =
      (dbQueryGenbankDb grows sn bt idn none none).map
        (fun l => l.filter (fun r => decide (s ≤ r.Start) && decide (r.End < e)))) ∧
    (dbQueryGenbankDb grows sn bt idn (some s) none =
      (dbQueryGenbankDb grows sn bt idn none none).map
        (fun l => l.filter (fun r => decide (s ≤ r.Start)))) ∧
    (dbQueryGenbankDb grows sn bt idn none (some e) =
      (dbQueryGenbankDb grows sn bt idn none none).map
        (fun l => l.filter (fun r => decide (r.End < e)))) := by
  cases hg : (truthy bt || truthy idn) with
  | false =>
      refine ⟨?_, ?_, ?_, ?_, ?_, ?_⟩ <;>
        simp [dbQueryGffDb, dbQueryGenbankDb, makeSqlQueryGffDb,
              makeSqlQueryGenbankDb, hg, Except.map]
  | true =>
      have key : ∀ (rows2 : List GffRow) (st en : Option Int),
          dbQueryGffDb rows2 sn bt idn st en =
            .ok ((rows2.filter (fun r =>
              ((optClause Clause.seqIdEq sn ++ optClause Clause.typeEq bt ++
                optClause Clause.attrLike idn).all (gffSat r)))).filter
              (fun r => (rangeClauses st en).all (gffSat r))) := by
        intro rows2 st en
        simp [dbQueryGffDb, makeSqlQueryGffDb, hg, List.filter_filter]
        refine List.filter_congr ?_
        intro r _
        simp [Bool.and_comm, Bool.and_left_comm, Bool.and_assoc]
      have gkey : ∀ (grows2 : List GbRow) (st en : Option Int),
          dbQueryGenbankDb grows2 sn bt idn st en =
            .ok ((grows2.filter (fun r =>
              ((optClause Clause.locusIdEq sn ++ optClause Clause.typeEq bt ++
                optClause Clause.locusTagLike idn).all (gbSat r)))).filter
              (fun r => (rangeClauses st en).all (gbSat r))) := by
        intro grows2 st en
        simp [dbQueryGenbankDb, makeSqlQueryGenbankDb, hg, List.filter_filter]
        refine List.filter_congr ?_
        intro r _
        simp [Bool.and_comm, Bool.and_left_comm, Bool.and_assoc]
      refine ⟨?_, ?_, ?_, ?_, ?_, ?_⟩ <;>
        simp [key, gkey, rangeClauses, Except.map, gffSat, gbSat]

/-! ## Claims C4 and C10: attach/detach ownership -/

theorem checkAttach_eq_none (selfId : Nat) (st : OwnState) (batch : List Nat) :
    checkAttach selfId st batch = none ↔
      ∀ i ∈ batch, (getFeat st i).parentId = selfId ∧ (getFeat st i).attached = false := by
  induction batch with
  | nil => simp [checkAttach]
  | cons i rest ih =>
      simp only [checkAttach]
      cases h1 : ((getFeat st i).parentId == selfId) with
      | false =>
          rw [if_pos (by simp)]
          constructor
          · intro h; cases h
          · intro hAll
            have := (hAll i (by simp)).1
            rw [this] at h1
            simp at h1
      | true =>
          rw [if_neg (by simp)]
          cases h2 : (getFeat st i).attached with
          | true =>
              rw [if_pos rfl]
              constructor
              · intro h; cases h
              · intro hAll
                have := (hAll i (by simp)).2
                rw [this] at h2
                cases h2
          | false =>
              rw [if_neg (by simp)]
              rw [ih]
              constructor
              · intro hAll
                intro j hj
                rcases List.mem_cons.mp hj with hji | hjr
                · subst hji
                  exact ⟨by simpa using h1, h2⟩
                · exact hAll j hjr
              · intro hAll j hj
                exact hAll j (List.mem_cons_of_mem _ hj)

theorem checkDetach_eq_none (selfId : Nat) (st : OwnState) (batch : List Nat) :
    checkDetach selfId st batch = none ↔
      ∀ i ∈ batch, (getFeat st i).parentId = selfId := by
  induction batch with
  | nil => simp [checkDetach]
  | cons i rest ih =>
      simp only [checkDetach]
      cases h1 : ((getFeat st i).parentId == selfId) with
      | false =>
          rw [if_pos (by simp)]
          constructor
          · intro h; cases h
          · intro hAll
            have := hAll i (by simp)
            rw [this] at h1
            simp at h1
      | true =>
          rw [if_neg (by simp)]
          rw [ih]
          constructor
          · intro hAll j hj
            rcases List.mem_cons.mp hj with hji | hjr
            · subst hji; simpa using h1
            · exact hAll j hjr
          · intro hAll j hj
            exact hAll j (List.mem_cons_of_mem _ hj)

/-- C4 counterexample: a feature whose parent IS the container but which is
not attached; detaching it succeeds silently with the state unchanged
(annotation list and flag untouched), where the claim demands a catchable
ownership error. -/
theorem C4_counterexample :
    detachAnnotations 0 ⟨[⟨0, false⟩], []⟩ [0] =
      (Except.ok (), (⟨[⟨0, false⟩], []⟩ : OwnState)) := by
  decide

/-- C4 (amended): attaching fails with an ownership error iff some feature
of the batch has a different parent or is already attached (as the claim
states); detaching fails iff some feature of the batch has a different
parent — an unattached feature with the right parent is silently skipped,
so a detach of such features is a no-op rather than an error. -/
theorem C4_attach_detach_ownership (selfId : Nat) (st : OwnState) (batch : List Nat) :
    ((attachAnnotations selfId st batch).1.isOk = false ↔
      ∃ i ∈ batch, ¬((getFeat st i).parentId = selfId) ∨ (getFeat st i).attached = true) ∧
    ((detachAnnotations selfId st batch).1.isOk = false ↔
      ∃ i ∈ batch, ¬((getFeat st i).parentId = selfId)) ∧
    ((∀ i ∈ batch, (getFeat st i).parentId = selfId ∧ (getFeat st i).attached = false) →
      detachAnnotations selfId st batch = (.ok (), st)) := by
  refine ⟨?_, ?_, ?_⟩
  · unfold attachAnnotations
    cases hc : checkAttach selfId st batch with
    | none =>
        have := (checkAttach_eq_none selfId st batch).mp hc
        simp [Except.isOk, Except.toBool]
        intro i hi
        exact ⟨(this i hi).1, by simpa using (this i hi).2⟩
    | some er =>
        simp only [Except.isOk, Except.toBool]
        constructor
        · intro _
          by_contra hno
          push_neg at hno
          have : checkAttach selfId st batch = none := by
            rw [checkAttach_eq_none]
            intro i hi
            rcases hno i hi with ⟨hp, ha⟩
            exact ⟨hp, by simpa using ha⟩
          rw [this] at hc
          cases hc
        · intro _; trivial
  · unfold detachAnnotations
    cases hc : checkDetach selfId st batch with
    | none =>
        have := (checkDetach_eq_none selfId st batch).mp hc
        simp [Except.isOk, Except.toBool]
        exact this
    | some er =>
        simp only [Except.isOk, Except.toBool]
        constructor
        · intro _
          by_contra hno
          push_neg at hno
          have : checkDetach selfId st batch = none := by
            rw [checkDetach_eq_none]
            exact hno
          rw [this] at hc
          cases hc
        · intro _; trivial
  · intro hAll
    unfold detachAnnotations
    rw [(checkDetach_eq_none selfId st batch).mpr (fun i hi => (hAll i hi).1)]
    have hfold : ∀ (l : List Nat), (∀ i ∈ l, (getFeat st i).attached = false) →
        (l.foldl (fun s i =>
          if (getFeat s i).attached then
            { s with annotsList := s.annotsList.erase i,
                     feats := setAttachedFlag s.feats i false }
          else s) st) = st := by
      intro l
      induction l with
      | nil => intro _; rfl
      | cons j rest ih =>
          intro hl
          simp only [List.foldl_cons]
          rw [hl j (by simp)]
          simp only [if_false, Bool.false_eq_true, ite_false]
          exact ih (fun i hi => hl i (List.mem_cons_of_mem _ hi))
    rw [hfold batch (fun i hi => (hAll i hi).2)]

/-- C10: the batch is checked in full before any mutation, so a violating
batch makes `attach_annotations` raise with the container's annotation
list and every feature's `attached` flag exactly as before the call. -/
theorem C10_attach_atomic (selfId : Nat) (st : OwnState) (batch : List Nat)
    (hviol : ∃ i ∈ batch,
      ¬((getFeat st i).parentId = selfId) ∨ (getFeat st i).attached = true) :
    ∃ er, attachAnnotations selfId st batch = (.error er, st) := by
  unfold attachAnnotations
  cases hc : checkAttach selfId st batch with
  | some er => exact ⟨er, rfl⟩
  | none =>
      exfalso
      have hAll := (checkAttach_eq_none selfId st batch).mp hc
      rcases hviol with ⟨i, hi, hbad⟩
      rcases hAll i hi with ⟨hp, ha⟩
      rcases hbad with hb | hb
      · exact hb hp
      · rw [hb] at ha; cases ha

/-- C10 witness: a batch containing an already-attached feature is
rejected with the state unchanged. -/
theorem C10_attach_atomic_witness :
    (∃ i ∈ [0],
      ¬((getFeat ⟨[⟨0, true⟩], [0]⟩ i).parentId = 0) ∨
        (getFeat ⟨[⟨0, true⟩], [0]⟩ i).attached = true) ∧
    ∃ er, attachAnnotations 0 ⟨[⟨0, true⟩], [0]⟩ [0] =
      (.error er, (⟨[⟨0, true⟩], [0]⟩ : OwnState)) :=
  ⟨by decide, C10_attach_atomic 0 ⟨[⟨0, true⟩], [0]⟩ [0] (by decide)⟩

/-- C4 witness: instantiating the amended attach/detach characterization on
a one-feature state: detaching an unattached own feature is a silent
no-op. -/
theorem C4_attach_detach_ownership_witness :
    (∀ i ∈ [0], (getFeat ⟨[⟨0, false⟩], []⟩ i).parentId = 0 ∧
        (getFeat ⟨[⟨0, false⟩], []⟩ i).attached = false) ∧
    detachAnnotations 0 ⟨[⟨0, false⟩], []⟩ [0] =
      (.ok (), (⟨[⟨0, false⟩], []⟩ : OwnState)) :=
  ⟨by decide,
   (C4_attach_detach_ownership 0 ⟨[⟨0, false⟩], []⟩ [0]).2.2 (by decide)⟩

/-! ## Claim C6: get_slice completeness -/

theorem filterMap_id_replicate_none (n : Nat) :
    (List.replicate n (none : Option Nat)).filterMap id = [] := by
  induction n with
  | zero => rfl
  | succ n ih => simp [List.replicate_succ, ih]

theorem content_filter_nonlost (l : List Sp) :
    (((l.filter fun sp => !sp.isLost).map Sp.posns).flatten).filterMap id =
      ((l.map Sp.posns).flatten).filterMap id := by
  induction l with
  | nil => rfl
  | cons sp rest ih =>
      cases sp with
      | lost n =>
          rw [List.filter_cons_of_neg (by simp [Sp.isLost])]
          rw [List.map_cons, List.flatten_cons, List.filterMap_append]
          rw [show (Sp.lost n).posns = List.replicate n none from rfl,
              filterMap_id_replicate_none, List.nil_append]
          exact ih
      | seg s e rev =>
          rw [List.filter_cons_of_pos (by rfl)]
          rw [List.map_cons, List.map_cons, List.flatten_cons, List.flatten_cons,
              List.filterMap_append, List.filterMap_append, ih]

/-- Dropping gaps does not change the non-gap content of a map. -/
theorem content_withoutGaps (m : CMap) : m.withoutGaps.content = m.content :=
  content_filter_nonlost m.spans

theorem complete_iff_no_lost (m : CMap) :
    m.complete = true ↔ m.spans.any Sp.isLost = false := by
  unfold CMap.complete
  rw [List.all_eq_true]
  constructor
  · intro h
    cases hany : m.spans.any Sp.isLost with
    | false => rfl
    | true =>
        rcases List.any_eq_true.mp hany with ⟨sp, hmem, hlost⟩
        have := h sp hmem
        rw [hlost] at this
        cases this
  · intro h sp hmem
    cases hl : sp.isLost with
    | false => simp
    | true =>
        exfalso
        have : m.spans.any Sp.isLost = true := List.any_eq_true.mpr ⟨sp, hmem, hl⟩
        rw [this] at h
        cases h

theorem withoutGaps_no_lost (m : CMap) :
    m.withoutGaps.spans.any Sp.isLost = false := by
  unfold CMap.withoutGaps
  cases hany : (m.spans.filter fun sp => !sp.isLost).any Sp.isLost with
  | false => rfl
  | true =>
      exfalso
      rcases List.any_eq_true.mp hany with ⟨sp, hmem, hlost⟩
      have := (List.mem_filter.mp hmem).2
      rw [hlost] at this
      cases this

/-- C6: `get_slice(complete=True)` resolves `base_map` directly: it fails
with the range-incompleteness error exactly when the map is not complete
(does not fully cover its declared extent, i.e. contains gap spans) and
otherwise returns the full fragment, never a truncated one;
`get_slice(complete=False)` returns the fragment of the gap-dropped map and
always succeeds. -/
theorem C6_get_slice_complete (f : BaseFeat) :
    (getSliceF f true = if f.base_map.complete then
        Except.ok (String.mk (f.base_map.content.map (fun p => f.base.toList.getD p '?')))
      else Except.error OwnErr.rangeIncomplete) ∧
    (getSliceF f false =
      Except.ok (String.mk (f.base_map.content.map (fun p => f.base.toList.getD p '?')))) := by
  constructor
  · unfold getSliceF fetchFragment
    cases hc : f.base_map.complete with
    | true =>
        have hno : f.base_map.spans.any Sp.isLost = false :=
          (complete_iff_no_lost _).mp hc
        simp [hno]
    | false =>
        have hyes : f.base_map.spans.any Sp.isLost = true := by
          cases hany : f.base_map.spans.any Sp.isLost with
          | true => rfl
          | false =>
              rw [(complete_iff_no_lost _).mpr hany] at hc
              cases hc
        simp [hyes]
  · unfold getSliceF fetchFragment
    cases hc : f.base_map.complete with
    | true =>
        have hno : f.base_map.spans.any Sp.isLost = false :=
          (complete_iff_no_lost _).mp hc
        simp [hc, hno]
    | false =>
        have hng := withoutGaps_no_lost f.base_map
        simp [hc, hng, content_withoutGaps]

/-! ## Claim C9: reverse-complement round trip -/

theorem seg_reversed_involutive (L : Nat) (sp : Sp) (h : sp.wfb L = true) :
    (sp.reversedRelativeTo L).reversedRelativeTo L = sp := by
  cases sp with
  | lost n => rfl
  | seg s e rev =>
      simp only [Sp.wfb, Bool.and_eq_true, decide_eq_true_eq] at h
      simp only [Sp.reversedRelativeTo, Bool.not_not, Sp.seg.injEq]
      exact ⟨by omega, by omega, trivial⟩

/-- Modelled `nucleic_reversed` is an involution on well-formed maps. -/
theorem nucleicReversed_involutive (m : CMap) (h : m.wfb = true) :
    m.nucleicReversed.nucleicReversed = m := by
  cases m with
  | mk spans pl =>
      simp only [CMap.nucleicReversed, List.map_map, CMap.mk.injEq, and_true]
      have hw : ∀ sp ∈ spans, sp.wfb pl = true := by
        intro sp hsp
        exact List.all_eq_true.mp h sp hsp
      have : spans.map
          ((Sp.reversedRelativeTo pl) ∘ (Sp.reversedRelativeTo pl)) =
          spans.map id :=
        List.map_congr_left (fun sp hsp => seg_reversed_involutive pl sp (hw sp hsp))
      rw [this, List.map_id]

/-- C9: reverse-complementing an annotated container twice restores every
feature exactly (coordinate maps identical to the originals), and a single
application changes only coordinates: the type/name qualifiers of the
propagated features coincide with the originals, in order. -/
theorem C9_nucleic_reversed_round_trip (c : Container)
    (h : ∀ f ∈ c.annots, f.fmap.wfb = true) :
    nucleicReversedOn (nucleicReversedOn c) = c ∧
    (nucleicReversedOn c).annots.map (fun f => (f.ftype, f.fname)) =
      c.annots.map (fun f => (f.ftype, f.fname)) := by
  constructor
  · cases c with
    | mk len annots =>
        simp only [nucleicReversedOn, List.map_map, Container.mk.injEq, true_and]
        have : annots.map
            ((fun f : Feat => Feat.mk f.ftype f.fname f.fmap.nucleicReversed) ∘
             (fun f : Feat => Feat.mk f.ftype f.fname f.fmap.nucleicReversed)) =
            annots.map id := by
          refine List.map_congr_left ?_
          intro f hf
          simp only [Function.comp_apply, id_eq]
          have := nucleicReversed_involutive f.fmap (h f hf)
          rw [this]
        rw [this, List.map_id]
  · simp [nucleicReversedOn, List.map_map]

/-- C9 witness: the fixture of the repository's map-reversal test: a
feature with spans (20,30) and (40,50) on a container of length 100. -/
theorem C9_nucleic_reversed_round_trip_witness :
    (∀ f ∈ (Container.mk 100
        [⟨"gene", "g", ⟨[Sp.seg 20 30 false, Sp.seg 40 50 false], 100⟩⟩]).annots,
      f.fmap.wfb = true) ∧
    nucleicReversedOn (nucleicReversedOn (Container.mk 100
        [⟨"gene", "g", ⟨[Sp.seg 20 30 false, Sp.seg 40 50 false], 100⟩⟩])) =
      Container.mk 100
        [⟨"gene", "g", ⟨[Sp.seg 20 30 false, Sp.seg 40 50 false], 100⟩⟩] :=
  ⟨by decide,
   (C9_nucleic_reversed_round_trip _ (by decide)).1⟩

/-! ## Claim C7: wildcard matching and recursive search -/

theorem mem_gamList_aux (ty : String) (nm : Option String) :
    ∀ (n : Nat) (l : List FTree), sizeOf l ≤ n → ∀ t,
      (t ∈ gamList ty nm true l ↔ t ∈ dscList l ∧ matchesPat t ty nm = true) := by
  intro n
  induction n with
  | zero =>
      intro l hl t
      cases l with
      | nil => simp [gamList, dscList]
      | cons a rest =>
          exfalso
          simp only [List.cons.sizeOf_spec] at hl
          omega
  | succ n ih =>
      intro l hl t
      cases l with
      | nil => simp [gamList, dscList]
      | cons a rest =>
          cases a with
          | node tt nn subs =>
              have hsz : sizeOf (FTree.node tt nn subs :: rest) =
                  1 + sizeOf (FTree.node tt nn subs) + sizeOf rest := by
                simp only [List.cons.sizeOf_spec]
              have hsz2 : sizeOf (FTree.node tt nn subs) =
                  1 + sizeOf tt + sizeOf nn + sizeOf subs := by
                simp only [FTree.node.sizeOf_spec]
              have hsubs : sizeOf subs ≤ n := by omega
              have hrest : sizeOf rest ≤ n := by omega
              have ih1 := ih subs hsubs
              have ih2 := ih rest hrest
              simp only [gamList, dscList, if_true]
              by_cases hm : matchesPat (FTree.node tt nn subs) ty nm = true
              · rw [if_pos hm]
                simp only [List.mem_append, List.mem_cons, List.not_mem_nil,
                           or_false]
                constructor
                · rintro ((rfl | hs) | hr)
                  · exact ⟨Or.inl rfl, hm⟩
                  · rcases (ih1 t).mp hs with ⟨hd, hmt⟩
                    exact ⟨Or.inr (Or.inl hd), hmt⟩
                  · rcases (ih2 t).mp hr with ⟨hd, hmt⟩
                    exact ⟨Or.inr (Or.inr hd), hmt⟩
                · rintro ⟨rfl | hd | hd, hmt⟩
                  · exact Or.inl (Or.inl rfl)
                  · exact Or.inl (Or.inr ((ih1 t).mpr ⟨hd, hmt⟩))
                  · exact Or.inr ((ih2 t).mpr ⟨hd, hmt⟩)
              · rw [if_neg hm]
                simp only [List.nil_append, List.mem_append, List.mem_cons]
                constructor
                · rintro (hs | hr)
                  · rcases (ih1 t).mp hs with ⟨hd, hmt⟩
                    exact ⟨Or.inr (Or.inl hd), hmt⟩
                  · rcases (ih2 t).mp hr with ⟨hd, hmt⟩
                    exact ⟨Or.inr (Or.inr hd), hmt⟩
                · rintro ⟨rfl | hd | hd, hmt⟩
                  · exact absurd hmt hm
                  · exact Or.inl ((ih1 t).mpr ⟨hd, hmt⟩)
                  · exact Or.inr ((ih2 t).mpr ⟨hd, hmt⟩)

/-- C7 counterexample: a container with one non-matching `gene` feature
holding a `CDS` sub-feature; the recursive query for `"CDS"` returns the
sub-feature although its parent did not match, while the claim (recursion
into matched features only) would return nothing. -/
theorem C7_counterexample :
    gamList "CDS" none true [FTree.node "gene" "g1" [FTree.node "CDS" "c1" []]] =
      [FTree.node "CDS" "c1" []] ∧
    gamListSpecRead "CDS" none [FTree.node "gene" "g1" [FTree.node "CDS" "c1" []]] = [] ∧
    ([FTree.node "CDS" "c1" []] : List FTree) ≠ [] := by
  have h1 : matchesPat (FTree.node "gene" "g1" [FTree.node "CDS" "c1" []])
      "CDS" none = false := by decide
  have h2 : matchesPat (FTree.node "CDS" "c1" []) "CDS" none = true := by decide
  refine ⟨?_, ?_, by simp⟩
  · simp [gamList, h1, h2]
  · simp [gamListSpecRead, h1]

/-- C7 (amended): matching is case-sensitive shell-style wildcard matching
of type and (when given) name; with `recurse=True` the search descends
into the sub-annotations of EVERY feature (matched or not), returning one
flattened sequence containing exactly the matching features reachable from
the list, with a matched parent emitted before the results from its
sub-tree; with `recurse=False` the result is the plain filter of the
top-level list. -/
theorem C7_matching_recursion (ty : String) (nm : Option String) (anns : List FTree) :
    (∀ t, t ∈ gamList ty nm true anns ↔
      t ∈ dscList anns ∧ matchesPat t ty nm = true) ∧
    (∀ tt nn subs rest, matchesPat (FTree.node tt nn subs) ty nm = true →
      gamList ty nm true (FTree.node tt nn subs :: rest) =
        FTree.node tt nn subs ::
          (gamList ty nm true subs ++ gamList ty nm true rest)) ∧
    (gamList ty nm false anns = anns.filter (fun t => matchesPat t ty nm)) := by
  refine ⟨fun t => mem_gamList_aux ty nm (sizeOf anns) anns (le_refl _) t, ?_, ?_⟩
  · intro tt nn subs rest hm
    simp [gamList, hm]
  · induction anns with
    | nil => simp [gamList]
    | cons a rest ih =>
        cases a with
        | node tt nn subs =>
            cases hm : matchesPat (FTree.node tt nn subs) ty nm with
            | true => simp [gamList, hm, List.filter_cons, ih]
            | false => simp [gamList, hm, List.filter_cons, ih]

/-- C7 witness: the order statement instantiated: a matching feature is
emitted before the results of searching its sub-annotations. -/
theorem C7_matching_recursion_witness :
    matchesPat (FTree.node "CDS" "x" []) "CDS" none = true ∧
    gamList "CDS" none true [FTree.node "CDS" "x" []] =
      FTree.node "CDS" "x" [] ::
        (gamList "CDS" none true [] ++ gamList "CDS" none true []) :=
  ⟨by decide,
   (C7_matching_recursion "CDS" none []).2.1 "CDS" "x" [] [] (by decide)⟩


/-! ## Claim C5: annotation survival under slicing -/

theorem sp_posns_spanOfPosn (o : Option Nat) : (spanOfPosn o).posns = [o] := by
  cases o with
  | none => rfl
  | some p =>
      show (List.range' p (p + 1 - p)).map some = [some p]
      rw [show p + 1 - p = 1 from by omega]
      rfl

/-- Round trip: the position list of a map re-emitted from positions is
that position list. -/
theorem posns_spansOfPosns (ps : List (Option Nat)) (pl : Nat) :
    (CMap.mk (spansOfPosns ps) pl).posns = ps := by
  show ((ps.map spanOfPosn).map Sp.posns).flatten = ps
  induction ps with
  | nil => rfl
  | cons o rest ih =>
      simp only [List.map_cons, List.flatten_cons, sp_posns_spanOfPosn]
      rw [ih]
      rfl

theorem idxWithin_range' (n a p : Nat) :
    idxWithin ((List.range' a n).map some) p =
      if a ≤ p ∧ p < a + n then some (p - a) else none := by
  induction n generalizing a with
  | zero =>
      rw [show List.range' a 0 = [] from rfl]
      rw [show idxWithin (([] : List Nat).map some) p = none from rfl]
      rw [if_neg (by omega)]
  | succ n ih =>
      rw [List.range'_succ, List.map_cons]
      rw [idxWithin]
      by_cases hap : a = p
      · subst hap
        rw [if_pos (by simp)]
        rw [if_pos (by omega)]
        simp
      · rw [if_neg (by simp [hap])]
        rw [ih (a + 1)]
        by_cases hin : a + 1 ≤ p ∧ p < a + 1 + n
        · rw [if_pos hin, if_pos (by omega)]
          simp only [Option.map_some']
          congr 1
          omega
        · rw [if_neg hin, if_neg (by omega)]
          rfl

theorem sliceCMap_posns (a b L : Nat) :
    (sliceCMap a b L).posns = (List.range' a (b - a)).map some := by
  show ([(Sp.seg a b false).posns]).flatten = _
  simp [Sp.posns]

theorem sliceCMap_content (a b L : Nat) :
    (sliceCMap a b L).content = List.range' a (b - a) := by
  unfold CMap.content
  rw [sliceCMap_posns]
  induction (List.range' a (b - a)) with
  | nil => rfl
  | cons x rest ih => simp [ih]

theorem getD_map_range {β : Type} (L : Nat) (g : Nat → β) (d : β) (p : Nat) :
    ((List.range L).map g).getD p d = if p < L then g p else d := by
  rw [List.getD_eq_getElem?_getD]
  by_cases hp : p < L
  · rw [if_pos hp]
    rw [List.getElem?_map]
    rw [List.getElem?_range hp]
    rfl
  · rw [if_neg hp]
    rw [List.getElem?_map]
    have : (List.range L)[p]? = none := by
      rw [List.getElem?_eq_none]
      simpa using Nat.le_of_not_lt hp
    rw [this]
    rfl

/-- The inverse of a slice map sends parent position `p` to `p - a` inside
the slice and to a gap outside it. -/
theorem inverse_sliceCMap_childPosn (a b L p : Nat) (hab : a ≤ b) (hbL : b ≤ L) :
    (sliceCMap a b L).inverse.childPosn p =
      if a ≤ p ∧ p < b then some (p - a) else none := by
  unfold CMap.inverse CMap.childPosn
  rw [posns_spansOfPosns]
  rw [getD_map_range]
  rw [show (sliceCMap a b L).parent_length = L from rfl]
  by_cases hp : p < L
  · rw [if_pos hp]
    rw [sliceCMap_posns, idxWithin_range']
    congr 1
    have : a + (b - a) = b := by omega
    rw [this]
  · rw [if_neg hp]
    rw [if_neg (by omega)]

theorem compose_posns (om im : CMap) :
    (CMap.compose om im).posns = im.posns.map (fun o => o.bind om.childPosn) := by
  unfold CMap.compose
  exact posns_spansOfPosns _ _

theorem mem_content_iff (m : CMap) (p : Nat) :
    p ∈ m.content ↔ some p ∈ m.posns := by
  unfold CMap.content
  rw [List.mem_filterMap]
  constructor
  · rintro ⟨o, ho, hid⟩
    cases o with
    | none => cases hid
    | some q =>
        simp only [id_eq, Option.some.injEq] at hid
        subst hid
        exact ho
  · intro h
    exact ⟨some p, h, rfl⟩

theorem useful_iff_content (m : CMap) :
    m.useful = true ↔ m.content ≠ [] := by
  unfold CMap.useful
  cases hc : m.content with
  | nil => simp
  | cons x rest => simp


theorem foldl_min_le_start (xs : List Nat) (x : Nat) :
    xs.foldl min x ≤ x := by
  induction xs generalizing x with
  | nil => exact le_refl x
  | cons y rest ih =>
      simp only [List.foldl_cons]
      exact le_trans (ih (min x y)) (Nat.min_le_left x y)

theorem foldl_min_le_mem (xs : List Nat) : ∀ (x p : Nat), p ∈ xs →
    xs.foldl min x ≤ p := by
  induction xs with
  | nil => intro x p hp; cases hp
  | cons y rest ih =>
      intro x p hp
      simp only [List.foldl_cons]
      rcases List.mem_cons.mp hp with rfl | hmem
      · exact le_trans (foldl_min_le_start rest (min x p)) (Nat.min_le_right x p)
      · exact ih (min x y) p hmem

theorem start_le_foldl_max (xs : List Nat) (x : Nat) :
    x ≤ xs.foldl max x := by
  induction xs generalizing x with
  | nil => exact le_refl x
  | cons y rest ih =>
      simp only [List.foldl_cons]
      exact le_trans (Nat.le_max_left x y) (ih (max x y))

theorem mem_le_foldl_max (xs : List Nat) : ∀ (x p : Nat), p ∈ xs →
    p ≤ xs.foldl max x := by
  induction xs with
  | nil => intro x p hp; cases hp
  | cons y rest ih =>
      intro x p hp
      simp only [List.foldl_cons]
      rcases List.mem_cons.mp hp with rfl | hmem
      · exact le_trans (Nat.le_max_right x p) (start_le_foldl_max rest (max x p))
      · exact ih (max x y) p hmem

theorem mstart_le_of_mem (m : CMap) (p : Nat) (hp : p ∈ m.content) :
    m.mstart ≤ p := by
  unfold CMap.mstart
  cases hc : m.content with
  | nil => rw [hc] at hp; cases hp
  | cons x rest =>
      rw [hc] at hp
      rcases List.mem_cons.mp hp with rfl | hmem
      · exact foldl_min_le_start rest p
      · exact foldl_min_le_mem rest x p hmem

theorem lt_mend_of_mem (m : CMap) (p : Nat) (hp : p ∈ m.content) :
    p < m.mend := by
  unfold CMap.mend
  cases hc : m.content with
  | nil => rw [hc] at hp; cases hp
  | cons x rest =>
      rw [hc] at hp
      rcases List.mem_cons.mp hp with rfl | hmem
      · exact Nat.lt_succ_of_le (start_le_foldl_max rest p)
      · exact Nat.lt_succ_of_le (mem_le_foldl_max rest x p hmem)

theorem foldl_min_const (xs : List Nat) (c : Nat) (h : ∀ x ∈ xs, c ≤ x) :
    xs.foldl min c = c := by
  induction xs with
  | nil => rfl
  | cons y rest ih =>
      simp only [List.foldl_cons]
      have hcy : min c y = c := by
        have := h y (by simp)
        omega
      rw [hcy]
      exact ih (fun x hx => h x (List.mem_cons_of_mem _ hx))

theorem foldl_max_range' (n a : Nat) :
    (List.range' (a + 1) n).foldl max a = a + n := by
  induction n generalizing a with
  | zero => rfl
  | succ n ih =>
      rw [List.range'_succ]
      simp only [List.foldl_cons]
      have h1 : max a (a + 1) = a + 1 := by omega
      rw [h1]
      have := ih (a + 1)
      rw [this]
      omega

theorem sliceCMap_mstart (a b L : Nat) (hab : a < b) :
    (sliceCMap a b L).mstart = a := by
  unfold CMap.mstart
  rw [sliceCMap_content]
  have hn : b - a = (b - a - 1) + 1 := by omega
  rw [hn, List.range'_succ]
  exact foldl_min_const _ a (by
    intro x hx
    have := List.mem_range'.mp hx
    omega)

theorem sliceCMap_mend (a b L : Nat) (hab : a < b) :
    (sliceCMap a b L).mend = b := by
  unfold CMap.mend
  rw [sliceCMap_content]
  have hn : b - a = (b - a - 1) + 1 := by omega
  rw [hn, List.range'_succ]
  show List.foldl max a (List.range' (a + 1) (b - a - 1)) + 1 = b
  rw [foldl_max_range']
  omega

theorem sliceCMap_useful (a b L : Nat) :
    (sliceCMap a b L).useful = true ↔ a < b := by
  rw [useful_iff_content, sliceCMap_content]
  constructor
  · intro h
    by_contra hab
    have : b - a = 0 := by omega
    rw [this] at h
    exact h rfl
  · intro hab
    have hn : b - a = (b - a - 1) + 1 := by omega
    rw [hn, List.range'_succ]
    simp

/-- The heart of the survival condition: the remapped feature map is
useful iff some non-gap position of the feature lies inside the slice. -/
theorem compose_inverse_useful (a b L : Nat) (hab : a ≤ b) (hbL : b ≤ L) (fm : CMap) :
    (CMap.compose (sliceCMap a b L).inverse fm).useful = true ↔
      ∃ p ∈ fm.content, a ≤ p ∧ p < b := by
  rw [useful_iff_content]
  constructor
  · intro h
    rcases List.exists_mem_of_ne_nil _ h with ⟨q, hq⟩
    rw [mem_content_iff, compose_posns, List.mem_map] at hq
    rcases hq with ⟨o, ho, hbind⟩
    cases o with
    | none => simp at hbind
    | some p =>
        rw [show (Option.bind (some p) (sliceCMap a b L).inverse.childPosn) =
          (sliceCMap a b L).inverse.childPosn p from rfl] at hbind
        rw [inverse_sliceCMap_childPosn a b L p hab hbL] at hbind
        by_cases hcond : a ≤ p ∧ p < b
        · exact ⟨p, (mem_content_iff fm p).mpr ho, hcond⟩
        · rw [if_neg hcond] at hbind
          cases hbind
  · rintro ⟨p, hp, hcond⟩
    intro hnil
    have hsome : some (p - a) ∈ (CMap.compose (sliceCMap a b L).inverse fm).posns := by
      rw [compose_posns, List.mem_map]
      refine ⟨some p, (mem_content_iff fm p).mp hp, ?_⟩
      rw [show (Option.bind (some p) (sliceCMap a b L).inverse.childPosn) =
        (sliceCMap a b L).inverse.childPosn p from rfl]
      rw [inverse_sliceCMap_childPosn a b L p hab hbL, if_pos hcond]
    have := (mem_content_iff _ _).mpr hsome
    rw [hnil] at this
    cases this


theorem filterMap_eq_map_filter {α β : Type} (F : α → Option β) (p : α → Bool)
    (g : α → β) (l : List α) (h : ∀ x ∈ l, F x = if p x then some (g x) else none) :
    l.filterMap F = (l.filter p).map g := by
  induction l with
  | nil => rfl
  | cons a rest ih =>
      cases hp : p a with
      | true =>
          have hF : F a = some (g a) := by rw [h a (by simp), hp, if_pos rfl]
          simp only [List.filterMap_cons, hF, List.filter_cons, hp, if_true,
                     List.map_cons]
          rw [ih (fun x hx => h x (List.mem_cons_of_mem _ hx))]
      | false =>
          have hF : F a = none := by rw [h a (by simp), hp, if_neg (by simp)]
          simp only [List.filterMap_cons, hF, List.filter_cons, hp,
                     Bool.false_eq_true, if_false]
          exact ih (fun x hx => h x (List.mem_cons_of_mem _ hx))

/-- The three gates of the survival loop collapse to one condition: some
non-gap position of the feature lies inside the slice. -/
theorem sliced_gate_eq (a b L : Nat) (hab : a < b) (hbL : b ≤ L) (f : Feat) :
    (if f.fmap.useful then
       if f.fmap.mstart < (sliceCMap a b L).mend &&
          (sliceCMap a b L).mstart < f.fmap.mend then
         if (f.remappedTo (sliceCMap a b L).inverse).fmap.useful then
           some (f.remappedTo (sliceCMap a b L).inverse) else none
       else none
     else none) =
      (if f.fmap.content.any (fun p => decide (a ≤ p) && decide (p < b)) then
        some (f.remappedTo (sliceCMap a b L).inverse) else none) := by
  rw [sliceCMap_mstart a b L hab, sliceCMap_mend a b L hab]
  cases hany : f.fmap.content.any (fun p => decide (a ≤ p) && decide (p < b)) with
  | true =>
      rcases List.any_eq_true.mp hany with ⟨p, hp, hcond⟩
      simp only [Bool.and_eq_true, decide_eq_true_eq] at hcond
      have huse : f.fmap.useful = true :=
        (useful_iff_content f.fmap).mpr (List.ne_nil_of_mem hp)
      rw [if_pos huse]
      have h1 : f.fmap.mstart < b := lt_of_le_of_lt (mstart_le_of_mem _ _ hp) hcond.2
      have h2 : a < f.fmap.mend := Nat.lt_of_le_of_lt hcond.1 (lt_mend_of_mem _ _ hp)
      rw [if_pos (by simp only [Bool.and_eq_true, decide_eq_true_eq]; exact ⟨h1, h2⟩)]
      have hru : (f.remappedTo (sliceCMap a b L).inverse).fmap.useful = true :=
        (compose_inverse_useful a b L (le_of_lt hab) hbL f.fmap).mpr ⟨p, hp, hcond⟩
      rw [if_pos hru, if_pos rfl]
  | false =>
      simp only [Bool.false_eq_true, if_false]
      by_cases hu : f.fmap.useful = true
      · rw [if_pos hu]
        by_cases hg : (decide (f.fmap.mstart < b) && decide (a < f.fmap.mend)) = true
        · rw [if_pos hg]
          have hru : ¬((f.remappedTo (sliceCMap a b L).inverse).fmap.useful = true) := by
            intro hcu
            rcases (compose_inverse_useful a b L (le_of_lt hab) hbL f.fmap).mp hcu with
              ⟨p, hp, hc1, hc2⟩
            have : f.fmap.content.any
                (fun p => decide (a ≤ p) && decide (p < b)) = true :=
              List.any_eq_true.mpr ⟨p, hp, by
                simp only [Bool.and_eq_true, decide_eq_true_eq]; exact ⟨hc1, hc2⟩⟩
            rw [hany] at this
            cases this
          rw [if_neg hru]
        · rw [if_neg hg]
      · rw [if_neg hu]

/-- C5 counterexample: a feature with spans (0,2) and (8,10) on a length-10
container is useful and its map's covering span overlaps the slice [3,6)
(start 0 < 6 and 3 < end 10), yet slicing the container drops it: the
sliced container has no annotations, because no actual span content falls
inside the slice and the remapped map is not useful. -/
theorem C5_counterexample :
    (containerGetItem
        ⟨10, [⟨"exon", "e1", ⟨[Sp.seg 0 2 false, Sp.seg 8 10 false], 10⟩⟩]⟩ 3 6).annots
      = [] ∧
    (CMap.mk [Sp.seg 0 2 false, Sp.seg 8 10 false] 10).useful = true ∧
    (CMap.mk [Sp.seg 0 2 false, Sp.seg 8 10 false] 10).mstart < 6 ∧
    3 < (CMap.mk [Sp.seg 0 2 false, Sp.seg 8 10 false] 10).mend := by
  decide

/-- C5 (amended): slicing a container to `[a, b)` yields a new container of
length `b - a` whose annotations are exactly the features with some
non-gap map content inside `[a, b)` (equivalently: useful, covering span
overlapping the slice, AND still useful after remapping), each remapped
through the inverse slice map, in order; all other features — including
ones whose covering span overlaps `[a, b)` but whose spans all miss it —
are silently dropped without an error. -/
theorem C5_slice_survival (c : Container) (a b : Nat) (hab : a ≤ b)
    (hbL : b ≤ c.length) :
    (containerGetItem c a b).annots =
      (c.annots.filter (fun f =>
        f.fmap.content.any (fun p => decide (a ≤ p) && decide (p < b)))).map
        (fun f => f.remappedTo (sliceCMap a b c.length).inverse) ∧
    (containerGetItem c a b).length = b - a := by
  constructor
  · show slicedAnnotations c a b = _
    by_cases hemp : c.annots.isEmpty = true
    · rw [show c.annots = [] from List.isEmpty_iff.mp hemp]
      unfold slicedAnnotations
      rw [show c.annots = [] from List.isEmpty_iff.mp hemp]
      rfl
    · by_cases hlt : a < b
      · have huse : (sliceCMap a b c.length).useful = true :=
          (sliceCMap_useful a b c.length).mpr hlt
        unfold slicedAnnotations
        rw [if_neg hemp]
        simp only [huse, if_true]
        exact filterMap_eq_map_filter _ _ _ _
          (fun f _ => sliced_gate_eq a b c.length hlt hbL f)
      · have hba : b = a := by omega
        have huse : ¬((sliceCMap a b c.length).useful = true) := by
          rw [sliceCMap_useful]
          omega
        unfold slicedAnnotations
        rw [if_neg hemp]
        simp only [Bool.not_eq_true] at huse
        simp only [huse, Bool.false_eq_true, if_false]
        have hfil : c.annots.filter (fun f =>
            f.fmap.content.any (fun p => decide (a ≤ p) && decide (p < b))) = [] := by
          rw [List.filter_eq_nil_iff]
          intro f _
          rw [Bool.not_eq_true]
          rw [List.any_eq_false]
          intro p _
          simp only [Bool.and_eq_true, decide_eq_true_eq, not_and]
          omega
        rw [hfil]
        rfl
  · show (sliceCMap a b c.length).content.length = b - a
    rw [sliceCMap_content]
    exact List.length_range' _ _ _

/-- C5 witness: a single-span feature (4,7) on a length-10 container under
the slice [3,6): the feature survives, remapped. -/
theorem C5_slice_survival_witness :
    ((3 ≤ 6 ∧ 6 ≤ 10) ∧ True) ∧
    ((containerGetItem ⟨10, [⟨"exon", "e2", ⟨[Sp.seg 4 7 false], 10⟩⟩]⟩ 3 6).annots =
      (((⟨10, [⟨"exon", "e2", ⟨[Sp.seg 4 7 false], 10⟩⟩]⟩ : Container).annots.filter
        (fun f => f.fmap.content.any (fun p => decide (3 ≤ p) && decide (p < 6)))).map
        (fun f => f.remappedTo (sliceCMap 3 6 10).inverse)) ∧
     (containerGetItem ⟨10, [⟨"exon", "e2", ⟨[Sp.seg 4 7 false], 10⟩⟩]⟩ 3 6).length
       = 6 - 3) :=
  ⟨⟨⟨by decide, by decide⟩, trivial⟩,
   C5_slice_survival ⟨10, [⟨"exon", "e2", ⟨[Sp.seg 4 7 false], 10⟩⟩]⟩ 3 6
     (by decide) (by decide)⟩


/-! ## Claim C8: region covering all -/

/-- First-seen deduplication of a key list. -/
def firstSeen : List String → List String
  | [] => []
  | k :: ks => k :: firstSeen (ks.filter (fun x => !(x == k)))
termination_by l => l.length
decreasing_by
  have := List.length_filter_le (fun x => !(x == k)) ks
  simp only [List.length_cons]
  omega

theorem not_contains_append_singleton (acc : List String) (x t : String) :
    (!(acc ++ [t]).contains x) = (!(x == t) && !(acc.contains x)) := by
  by_cases hxa : x ∈ acc
  · have c1 : (acc ++ [t]).contains x = true := by
      rw [show (acc ++ [t]).contains x = List.elem x (acc ++ [t]) from rfl,
          List.elem_eq_mem]
      simp [hxa]
    have c2 : acc.contains x = true := by
      rw [show acc.contains x = List.elem x acc from rfl, List.elem_eq_mem]
      simp [hxa]
    rw [c1, c2]
    simp
  · by_cases hxt : x = t
    · have c1 : (acc ++ [t]).contains x = true := by
        rw [show (acc ++ [t]).contains x = List.elem x (acc ++ [t]) from rfl,
            List.elem_eq_mem]
        simp [hxt]
      have c2 : acc.contains x = false := by
        rw [show acc.contains x = List.elem x acc from rfl, List.elem_eq_mem]
        simp [hxa]
      have c3 : (x == t) = true := by simp [hxt]
      rw [c1, c2, c3]
      simp
    · have c1 : (acc ++ [t]).contains x = false := by
        rw [show (acc ++ [t]).contains x = List.elem x (acc ++ [t]) from rfl,
            List.elem_eq_mem]
        simp [hxa, hxt]
      have c2 : acc.contains x = false := by
        rw [show acc.contains x = List.elem x acc from rfl, List.elem_eq_mem]
        simp [hxa]
      have c3 : (x == t) = false := by simp [hxt]
      rw [c1, c2, c3]
      simp

theorem foldl_distinct_spec (l : List Feat) :
    ∀ acc : List String,
      l.foldl (fun acc f => if acc.contains f.ftype then acc else acc ++ [f.ftype]) acc =
        acc ++ firstSeen ((l.map Feat.ftype).filter (fun t => !(acc.contains t))) := by
  induction l with
  | nil => intro acc; simp [firstSeen]
  | cons f rest ih =>
      intro acc
      simp only [List.foldl_cons, List.map_cons, List.filter_cons]
      cases hc : acc.contains f.ftype with
      | true =>
          rw [if_pos rfl]
          rw [ih acc]
          simp
      | false =>
          rw [if_neg (by simp)]
          rw [ih (acc ++ [f.ftype])]
          simp only [Bool.not_false, if_true]
          rw [firstSeen]
          rw [List.append_assoc]
          congr 1
          rw [List.singleton_append]
          congr 1
          rw [List.filter_filter]
          refine congrArg firstSeen ?_
          refine List.filter_congr ?_
          intro x _
          exact not_contains_append_singleton acc x f.ftype

/-- The distinct-type loop of `get_region_covering_all` collects exactly
the first-seen distinct types. -/
theorem distinctTypes_eq_firstSeen (feats : List Feat) :
    distinctTypes feats = firstSeen (feats.map Feat.ftype) := by
  unfold distinctTypes
  rw [foldl_distinct_spec feats []]
  rw [List.nil_append]
  congr 1
  rw [List.filter_eq_self]
  intro x _
  rfl

/-- The collapsed-form invariant for a span list starting no earlier than
`lo`: non-gap, non-empty forward spans, strictly separated (next start
after previous end). -/
def segsCollapsed : Nat → List Sp → Prop
  | _, [] => True
  | lo, Sp.seg s e false :: rest => lo ≤ s ∧ s < e ∧ segsCollapsed (e + 1) rest
  | _, Sp.seg _ _ true :: _ => False
  | _, Sp.lost _ :: _ => False

/-- The non-gap content positions of a bare span list. -/
def spansContent (l : List Sp) : List Nat :=
  ((l.map Sp.posns).flatten).filterMap id

theorem spansContent_cons (sp : Sp) (l : List Sp) :
    spansContent (sp :: l) = sp.posns.filterMap id ++ spansContent l := by
  unfold spansContent
  rw [List.map_cons, List.flatten_cons, List.filterMap_append]

theorem seg_content (s e : Nat) :
    (Sp.seg s e false).posns.filterMap id = List.range' s (e - s) := by
  show ((List.range' s (e - s)).map some).filterMap id = _
  induction (List.range' s (e - s)) with
  | nil => rfl
  | cons x rest ih => simp [ih]

theorem mergeFrom_mem (ps : List Nat) : ∀ (s e q : Nat), s ≤ e →
    (∀ x ∈ ps, e ≤ x) → ps.Pairwise (· < ·) →
    (q ∈ spansContent (mergeFrom s e ps) ↔ (s ≤ q ∧ q < e) ∨ q ∈ ps) := by
  induction ps with
  | nil =>
      intro s e q hse _ _
      unfold mergeFrom
      rw [show spansContent [Sp.seg s e false] =
        (Sp.seg s e false).posns.filterMap id ++ spansContent [] from
        spansContent_cons _ _]
      rw [seg_content]
      simp only [List.not_mem_nil, or_false, List.mem_append]
      rw [List.mem_range'_1]
      constructor
      · rintro (h | h)
        · omega
        · cases h
      · intro h
        left
        omega
  | cons p rest ih =>
      intro s e q hse hge hsorted
      have hep : e ≤ p := hge p (by simp)
      have hrest_gt : ∀ x ∈ rest, p < x := by
        intro x hx
        exact (List.pairwise_cons.mp hsorted).1 x hx
      have hrest_sorted : rest.Pairwise (· < ·) :=
        (List.pairwise_cons.mp hsorted).2
      unfold mergeFrom
      by_cases hpe : p = e
      · rw [if_pos (by simp [hpe])]
        rw [ih s (e + 1) q (by omega)
          (fun x hx => by have := hrest_gt x hx; omega) hrest_sorted]
        subst hpe
        constructor
        · rintro (⟨h1, h2⟩ | h)
          · by_cases hq : q = p
            · right; simp [hq]
            · left; omega
          · right; exact List.mem_cons_of_mem _ h
        · rintro (⟨h1, h2⟩ | h)
          · left; omega
          · rcases List.mem_cons.mp h with rfl | hmem
            · left; omega
            · right; exact hmem
      · rw [if_neg (by simp [hpe])]
        rw [spansContent_cons, seg_content]
        rw [List.mem_append, List.mem_range'_1]
        rw [ih p (p + 1) q (by omega)
          (fun x hx => by have := hrest_gt x hx; omega) hrest_sorted]
        constructor
        · rintro (h | ⟨h1, h2⟩ | h)
          · left; omega
          · right
            have : q = p := by omega
            simp [this]
          · right; exact List.mem_cons_of_mem _ h
        · rintro (⟨h1, h2⟩ | h)
          · left; omega
          · rcases List.mem_cons.mp h with rfl | hmem
            · right; left; omega
            · right; right; exact hmem

theorem mergeFrom_no_lost (ps : List Nat) : ∀ (s e : Nat),
    (mergeFrom s e ps).all (fun sp => !sp.isLost) = true := by
  induction ps with
  | nil =>
      intro s e
      rfl
  | cons p rest ih =>
      intro s e
      unfold mergeFrom
      by_cases hpe : p = e
      · rw [if_pos (by simp [hpe])]
        exact ih s (e + 1)
      · rw [if_neg (by simp [hpe])]
        rw [List.all_cons]
        rw [ih p (p + 1)]
        rfl

theorem mergeFrom_collapsed (ps : List Nat) : ∀ (lo s e : Nat), lo ≤ s → s < e →
    (∀ x ∈ ps, e ≤ x) → ps.Pairwise (· < ·) →
    segsCollapsed lo (mergeFrom s e ps) := by
  induction ps with
  | nil =>
      intro lo s e hlo hse _ _
      unfold mergeFrom
      exact ⟨hlo, hse, trivial⟩
  | cons p rest ih =>
      intro lo s e hlo hse hge hsorted
      have hep : e ≤ p := hge p (by simp)
      have hrest_gt : ∀ x ∈ rest, p < x := by
        intro x hx
        exact (List.pairwise_cons.mp hsorted).1 x hx
      have hrest_sorted : rest.Pairwise (· < ·) :=
        (List.pairwise_cons.mp hsorted).2
      unfold mergeFrom
      by_cases hpe : p = e
      · rw [if_pos (by simp [hpe])]
        exact ih lo s (e + 1) hlo (by omega)
          (fun x hx => by have := hrest_gt x hx; omega) hrest_sorted
      · rw [if_neg (by simp [hpe])]
        refine ⟨hlo, hse, ?_⟩
        exact ih (e + 1) p (p + 1) (by omega) (by omega)
          (fun x hx => by have := hrest_gt x hx; omega) hrest_sorted


theorem mergeRuns_mem (l : List Nat) (hs : l.Pairwise (· < ·)) (q : Nat) :
    q ∈ spansContent (mergeRuns l) ↔ q ∈ l := by
  cases l with
  | nil => simp [mergeRuns, spansContent]
  | cons p ps =>
      unfold mergeRuns
      rw [mergeFrom_mem ps p (p + 1) q (by omega)
        (fun x hx => by have := (List.pairwise_cons.mp hs).1 x hx; omega)
        (List.pairwise_cons.mp hs).2]
      constructor
      · rintro (⟨h1, h2⟩ | h)
        · have : q = p := by omega
          simp [this]
        · exact List.mem_cons_of_mem _ h
      · intro h
        rcases List.mem_cons.mp h with rfl | hmem
        · left; omega
        · right; exact hmem

theorem mergeRuns_no_lost (l : List Nat) :
    (mergeRuns l).all (fun sp => !sp.isLost) = true := by
  cases l with
  | nil => rfl
  | cons p ps => exact mergeFrom_no_lost ps p (p + 1)

theorem mergeRuns_collapsed (l : List Nat) (hs : l.Pairwise (· < ·)) :
    segsCollapsed 0 (mergeRuns l) := by
  cases l with
  | nil => trivial
  | cons p ps =>
      exact mergeFrom_collapsed ps 0 p (p + 1) (by omega) (by omega)
        (fun x hx => by have := (List.pairwise_cons.mp hs).1 x hx; omega)
        (List.pairwise_cons.mp hs).2

theorem spansContent_append (l1 l2 : List Sp) :
    spansContent (l1 ++ l2) = spansContent l1 ++ spansContent l2 := by
  unfold spansContent
  rw [List.map_append, List.flatten_append, List.filterMap_append]

theorem content_flatten_spans (feats : List Feat) (L : Nat) (q : Nat) :
    q ∈ (CMap.mk ((feats.map (fun f => f.fmap.spans)).flatten) L).content ↔
      ∃ f ∈ feats, q ∈ f.fmap.content := by
  show q ∈ spansContent ((feats.map (fun f => f.fmap.spans)).flatten) ↔ _
  induction feats with
  | nil => simp [spansContent]
  | cons f rest ih =>
      rw [List.map_cons, List.flatten_cons, spansContent_append]
      rw [List.mem_append]
      constructor
      · rintro (h | h)
        · exact ⟨f, by simp, h⟩
        · rcases ih.mp h with ⟨g, hg, hq⟩
          exact ⟨g, List.mem_cons_of_mem _ hg, hq⟩
      · rintro ⟨g, hg, hq⟩
        rcases List.mem_cons.mp hg with rfl | hmem
        · exact Or.inl hq
        · exact Or.inr (ih.mpr ⟨g, hmem, hq⟩)

theorem content_lt_parent (m : CMap) (h : m.wfb = true) :
    ∀ q ∈ m.content, q < m.parent_length := by
  intro q hq
  rw [mem_content_iff] at hq
  unfold CMap.posns at hq
  rw [List.mem_flatten] at hq
  rcases hq with ⟨loc, hloc, hqin⟩
  rw [List.mem_map] at hloc
  rcases hloc with ⟨sp, hsp, rfl⟩
  have hwf := List.all_eq_true.mp h sp hsp
  cases sp with
  | lost n =>
      exfalso
      rw [show (Sp.lost n).posns = List.replicate n none from rfl] at hqin
      have := List.eq_of_mem_replicate hqin
      cases this
  | seg s e rev =>
      simp only [Sp.wfb, Bool.and_eq_true, decide_eq_true_eq] at hwf
      have hmem : some q ∈ (List.range' s (e - s)).map some := by
        rw [show (Sp.seg s e rev).posns =
          (if rev then ((List.range' s (e - s)).map some).reverse
           else (List.range' s (e - s)).map some) from rfl] at hqin
        cases rev with
        | true =>
            rw [if_pos rfl] at hqin
            exact List.mem_reverse.mp hqin
        | false => exact hqin
      rw [List.mem_map] at hmem
      rcases hmem with ⟨x, hx, hxq⟩
      have hxe := List.mem_range'_1.mp hx
      simp only [Option.some.injEq] at hxq
      subst hxq
      omega

/-- C8 counterexample: for inputs of types "gene" and "CDS" the synthetic
feature's `type` is the constant "region" — the comma-joined distinct
types "gene,CDS" land in its `name`, not its `type`, so the claim about
the type is false. -/
theorem C8_counterexample :
    (regionCoveringAll ⟨12, []⟩
      [⟨"gene", "g", ⟨[Sp.seg 2 5 false], 12⟩⟩,
       ⟨"CDS", "c", ⟨[Sp.seg 4 8 false], 12⟩⟩]).ftype = "region" ∧
    (regionCoveringAll ⟨12, []⟩
      [⟨"gene", "g", ⟨[Sp.seg 2 5 false], 12⟩⟩,
       ⟨"CDS", "c", ⟨[Sp.seg 4 8 false], 12⟩⟩]).fname = "gene,CDS" ∧
    "region" ≠ "gene,CDS" := by
  refine ⟨rfl, ?_, by decide⟩
  rfl

/-- C8 (amended): `get_region_covering_all` returns one synthetic feature
whose `type` is the constant "region", whose `name` is the comma-joined
distinct input types in first-seen order, and whose map is the gap-free
union of the input features' spans with overlaps collapsed: no gap spans,
content exactly the union of the inputs' content, and the spans in
strictly separated sorted forward form. -/
theorem C8_region_covering_all (c : Container) (feats : List Feat)
    (hwf : ∀ f ∈ feats, f.fmap.wfb = true ∧ f.fmap.parent_length = c.length) :
    (regionCoveringAll c feats).ftype = "region" ∧
    (regionCoveringAll c feats).fname =
      String.intercalate "," (firstSeen (feats.map Feat.ftype)) ∧
    ((regionCoveringAll c feats).fmap.spans.all (fun sp => !sp.isLost) = true) ∧
    (∀ q, q ∈ (regionCoveringAll c feats).fmap.content ↔
      ∃ f ∈ feats, q ∈ f.fmap.content) ∧
    segsCollapsed 0 (regionCoveringAll c feats).fmap.spans := by
  have hsorted : ((List.range c.length).filter
      (fun p => (CMap.mk ((feats.map (fun f => f.fmap.spans)).flatten)
        c.length).content.contains p)).Pairwise (· < ·) :=
    List.Pairwise.sublist (List.filter_sublist _) (List.pairwise_lt_range c.length)
  refine ⟨rfl, ?_, ?_, ?_, ?_⟩
  · show String.intercalate "," (distinctTypes feats) = _
    rw [distinctTypes_eq_firstSeen]
  · exact mergeRuns_no_lost _
  · intro q
    show q ∈ spansContent (mergeRuns _) ↔ _
    rw [mergeRuns_mem _ hsorted q]
    rw [List.mem_filter]
    rw [List.mem_range]
    constructor
    · rintro ⟨hqL, hqc⟩
      rw [show ((CMap.mk ((feats.map (fun f => f.fmap.spans)).flatten)
          c.length).content.contains q) =
        List.elem q ((CMap.mk ((feats.map (fun f => f.fmap.spans)).flatten)
          c.length).content) from rfl, List.elem_eq_mem] at hqc
      have hqmem := of_decide_eq_true hqc
      exact (content_flatten_spans feats c.length q).mp hqmem
    · intro hex
      have hqmem := (content_flatten_spans feats c.length q).mpr hex
      constructor
      · rcases hex with ⟨f, hf, hq⟩
        have := content_lt_parent f.fmap (hwf f hf).1 q hq
        rw [(hwf f hf).2] at this
        exact this
      · rw [show ((CMap.mk ((feats.map (fun f => f.fmap.spans)).flatten)
            c.length).content.contains q) =
          List.elem q ((CMap.mk ((feats.map (fun f => f.fmap.spans)).flatten)
            c.length).content) from rfl, List.elem_eq_mem]
        exact decide_eq_true hqmem
  · exact mergeRuns_collapsed _ hsorted

/-- C8 witness: two overlapping features of types "gene" and "CDS" on a
length-12 container. -/
theorem C8_region_covering_all_witness :
    (∀ f ∈ [(⟨"gene", "g", ⟨[Sp.seg 2 5 false], 12⟩⟩ : Feat),
            ⟨"CDS", "c", ⟨[Sp.seg 4 8 false], 12⟩⟩],
      f.fmap.wfb = true ∧ f.fmap.parent_length = 12) ∧
    ((regionCoveringAll ⟨12, []⟩
        [⟨"gene", "g", ⟨[Sp.seg 2 5 false], 12⟩⟩,
         ⟨"CDS", "c", ⟨[Sp.seg 4 8 false], 12⟩⟩]).ftype = "region" ∧
     (regionCoveringAll ⟨12, []⟩
        [⟨"gene", "g", ⟨[Sp.seg 2 5 false], 12⟩⟩,
         ⟨"CDS", "c", ⟨[Sp.seg 4 8 false], 12⟩⟩]).fname =
       String.intercalate ","
         (firstSeen ([(⟨"gene", "g", ⟨[Sp.seg 2 5 false], 12⟩⟩ : Feat),
           ⟨"CDS", "c", ⟨[Sp.seg 4 8 false], 12⟩⟩].map Feat.ftype)) ∧
     ((regionCoveringAll ⟨12, []⟩
        [⟨"gene", "g", ⟨[Sp.seg 2 5 false], 12⟩⟩,
         ⟨"CDS", "c", ⟨[Sp.seg 4 8 false], 12⟩⟩]).fmap.spans.all
           (fun sp => !sp.isLost) = true) ∧
     (∀ q, q ∈ (regionCoveringAll ⟨12, []⟩
        [⟨"gene", "g", ⟨[Sp.seg 2 5 false], 12⟩⟩,
         ⟨"CDS", "c", ⟨[Sp.seg 4 8 false], 12⟩⟩]).fmap.content ↔
       ∃ f ∈ [(⟨"gene", "g", ⟨[Sp.seg 2 5 false], 12⟩⟩ : Feat),
              ⟨"CDS", "c", ⟨[Sp.seg 4 8 false], 12⟩⟩], q ∈ f.fmap.content) ∧
     segsCollapsed 0 (regionCoveringAll ⟨12, []⟩
        [⟨"gene", "g", ⟨[Sp.seg 2 5 false], 12⟩⟩,
         ⟨"CDS", "c", ⟨[Sp.seg 4 8 false], 12⟩⟩]).fmap.spans) :=
  ⟨by decide, C8_region_covering_all ⟨12, []⟩ _ (by decide)⟩


/-! ## Claim C3: row-to-feature grouping in find_records -/

/-- The keys of the insertion-ordered grouping dictionary. -/
def keysOf (acc : List (String × Rec)) : List String := acc.map Prod.fst

/-- The (Start, End) pairs of the rows carrying identifier `k`, in row
order. -/
def rowCoordsFor (k : String) (rows : List GffRow) : List (Int × Int) :=
  (rows.filter (fun r => r.AttrID == k)).map (fun r => (r.Start, r.End))

/-- The claim's reading of the GFF grouping: one descriptor per distinct
identifier in first-seen order, with the first row's type and all matching
rows' (Start, End) pairs in row order. -/
def specAssocGff : List GffRow → List (String × Rec)
  | [] => []
  | r :: rest =>
      (r.AttrID, ⟨r.AttrID, r.Typ,
        (r.Start, r.End) :: rowCoordsFor r.AttrID rest⟩) ::
        specAssocGff (rest.filter (fun x => !(x.AttrID == r.AttrID)))
termination_by l => l.length
decreasing_by
  have := List.length_filter_le (fun x => !(x.AttrID == r.AttrID)) rest
  simp only [List.length_cons]
  omega

theorem lookup_none_iff (k : String) (acc : List (String × Rec)) :
    acc.lookup k = none ↔ ∀ kr ∈ acc, kr.1 ≠ k := by
  induction acc with
  | nil => simp
  | cons kr rest ih =>
      cases kr with
      | mk k2 v =>
          cases hk : (k == k2) with
          | true =>
              have h1 : ((k2, v) :: rest).lookup k = some v := by
                simp [List.lookup, hk]
              rw [h1]
              have hkeq : k = k2 := by simpa using hk
              simp only [List.mem_cons]
              constructor
              · intro h; cases h
              · intro hAll
                exfalso
                exact hAll (k2, v) (Or.inl rfl) hkeq.symm
          | false =>
              have h1 : ((k2, v) :: rest).lookup k = rest.lookup k := by
                simp [List.lookup, hk]
              rw [h1, ih]
              have hkne : ¬(k2 = k) := by
                intro h
                subst h
                simp at hk
              constructor
              · intro hAll kr2 hkr2
                rcases List.mem_cons.mp hkr2 with rfl | hmem
                · exact hkne
                · exact hAll kr2 hmem
              · intro hAll kr2 hkr2
                exact hAll kr2 (List.mem_cons_of_mem _ hkr2)

theorem contains_keys_eq_false (k : String) (acc : List (String × Rec))
    (h : acc.lookup k = none) : (keysOf acc).contains k = false := by
  rw [show (keysOf acc).contains k = List.elem k (keysOf acc) from rfl,
      List.elem_eq_mem]
  rw [decide_eq_false_iff_not]
  intro hmem
  rcases List.mem_map.mp hmem with ⟨kr, hkr, hfst⟩
  exact (lookup_none_iff k acc).mp h kr hkr hfst

theorem contains_keys_eq_true (k : String) (acc : List (String × Rec)) (v : Rec)
    (h : acc.lookup k = some v) : (keysOf acc).contains k = true := by
  rw [show (keysOf acc).contains k = List.elem k (keysOf acc) from rfl,
      List.elem_eq_mem]
  rw [decide_eq_true_eq]
  by_contra hmem
  have : acc.lookup k = none := by
    rw [lookup_none_iff]
    intro kr hkr hfst
    exact hmem (List.mem_map.mpr ⟨kr, hkr, hfst⟩)
  rw [this] at h
  cases h

theorem rowCoordsFor_filter_pass (k : String) (rest : List GffRow)
    (P : GffRow → Bool) (h : ∀ x, (x.AttrID == k) = true → P x = true) :
    rowCoordsFor k (rest.filter P) = rowCoordsFor k rest := by
  unfold rowCoordsFor
  congr 1
  rw [List.filter_filter]
  refine List.filter_congr ?_
  intro x _
  cases ha : (x.AttrID == k) with
  | true => rw [h x ha]; rfl
  | false => rfl

theorem foldl_upsertGff_spec (rows : List GffRow) :
    ∀ acc : List (String × Rec),
      rows.foldl upsertGff acc =
        acc.map (fun kr =>
          (kr.1, { kr.2 with spans := kr.2.spans ++ rowCoordsFor kr.1 rows })) ++
        specAssocGff (rows.filter (fun r => !((keysOf acc).contains r.AttrID))) := by
  induction rows with
  | nil =>
      intro acc
      have hid : (fun kr : String × Rec =>
          (kr.1, { kr.2 with spans := kr.2.spans ++ rowCoordsFor kr.1 [] })) =
          (fun kr => kr) := by
        funext kr
        simp [rowCoordsFor]
      simp only [List.foldl_nil, List.filter_nil, specAssocGff, List.append_nil, hid]
      rw [List.map_id']
  | cons r rest ih =>
      intro acc
      rw [List.foldl_cons]
      rw [ih (upsertGff acc r)]
      cases hlk : acc.lookup r.AttrID with
      | some v =>
          have hup : upsertGff acc r = acc.map (fun kr =>
              if kr.1 == r.AttrID then
                (kr.1, { kr.2 with spans := kr.2.spans ++ [(r.Start, r.End)] })
              else kr) := by
            unfold upsertGff
            rw [hlk]
          have hkmem := contains_keys_eq_true r.AttrID acc v hlk
          rw [hup]
          have hkeys : keysOf (acc.map (fun kr =>
              if kr.1 == r.AttrID then
                (kr.1, { kr.2 with spans := kr.2.spans ++ [(r.Start, r.End)] })
              else kr)) = keysOf acc := by
            unfold keysOf
            rw [List.map_map]
            refine List.map_congr_left ?_
            intro kr _
            simp only [Function.comp_apply]
            split
            · rfl
            · rfl
          rw [hkeys]
          rw [List.map_map]
          rw [List.filter_cons]
          rw [show (!((keysOf acc).contains r.AttrID)) = false from by
            rw [hkmem]; rfl]
          simp only [Bool.false_eq_true, if_false]
          congr 1
          refine List.map_congr_left ?_
          intro kr _
          simp only [Function.comp_apply]
          by_cases hk : (kr.1 == r.AttrID) = true
          · have hkeq : kr.1 = r.AttrID := by simpa using hk
            rw [if_pos hk]
            have hcoords : rowCoordsFor kr.1 (r :: rest) =
                (r.Start, r.End) :: rowCoordsFor kr.1 rest := by
              unfold rowCoordsFor
              rw [List.filter_cons,
                  if_pos (by rw [hkeq]; exact beq_self_eq_true r.AttrID),
                  List.map_cons]
            rw [hcoords]
            simp [List.append_assoc]
          · rw [if_neg hk]
            have hcoords : rowCoordsFor kr.1 (r :: rest) =
                rowCoordsFor kr.1 rest := by
              unfold rowCoordsFor
              rw [List.filter_cons, if_neg ?_]
              intro hba
              have : r.AttrID = kr.1 := by simpa using hba
              rw [this] at hk
              exact hk (beq_self_eq_true kr.1)
            rw [hcoords]
      | none =>
          have hup : upsertGff acc r = acc ++
              [(r.AttrID, ⟨r.AttrID, r.Typ, [(r.Start, r.End)]⟩)] := by
            unfold upsertGff
            rw [hlk]
          have hknot := contains_keys_eq_false r.AttrID acc hlk
          rw [hup]
          have hkeys : keysOf (acc ++
              [(r.AttrID, (⟨r.AttrID, r.Typ, [(r.Start, r.End)]⟩ : Rec))]) =
              keysOf acc ++ [r.AttrID] := by
            unfold keysOf
            rw [List.map_append]
            rfl
          rw [hkeys]
          rw [List.map_append]
          rw [List.filter_cons]
          rw [show (!((keysOf acc).contains r.AttrID)) = true from by
            rw [hknot]; rfl]
          simp only [if_true]
          rw [specAssocGff]
          rw [List.append_assoc]
          congr 1
          · refine List.map_congr_left ?_
            intro kr hkr
            have hne : (r.AttrID == kr.1) = false := by
              by_contra hba
              have hba2 : (r.AttrID == kr.1) = true := by
                cases hb : (r.AttrID == kr.1) with
                | true => rfl
                | false => rw [hb] at hba; exact absurd rfl hba
              have heq : r.AttrID = kr.1 := by simpa using hba2
              have : (keysOf acc).contains r.AttrID = true := by
                rw [show (keysOf acc).contains r.AttrID =
                  List.elem r.AttrID (keysOf acc) from rfl, List.elem_eq_mem]
                rw [decide_eq_true_eq]
                exact List.mem_map.mpr ⟨kr, hkr, heq.symm⟩
              rw [this] at hknot
              cases hknot
            have hcoords : rowCoordsFor kr.1 (r :: rest) =
                rowCoordsFor kr.1 rest := by
              unfold rowCoordsFor
              rw [List.filter_cons, if_neg (by rw [hne]; simp)]
            rw [hcoords]
          · simp only [List.map_cons, List.map_nil, List.singleton_append]
            have hpass : rowCoordsFor r.AttrID
                (rest.filter (fun x => !((keysOf acc).contains x.AttrID))) =
                rowCoordsFor r.AttrID rest := by
              refine rowCoordsFor_filter_pass r.AttrID rest _ ?_
              intro x hx
              have heq : x.AttrID = r.AttrID := by simpa using hx
              rw [heq, hknot]
              rfl
            rw [hpass]
            congr 1
            rw [List.filter_filter]
            refine congrArg specAssocGff ?_
            refine List.filter_congr ?_
            intro x _
            exact not_contains_append_singleton (keysOf acc) x.AttrID r.AttrID


/-- The descriptor a GenBank row is turned into. -/
def gbRecOf (r : GbRow) : Rec := ⟨r.Locus_Tag, r.Typ, r.Spans⟩

/-- The last row of a list carrying grouping key `k`. -/
def lastRowGb (k : String) : List GbRow → Option GbRow
  | [] => none
  | r :: rest =>
      match lastRowGb k rest with
      | some x => some x
      | none => if r.Locus_Tag ++ r.Typ == k then some r else none

/-- The actual grouping the GenBank `find_records` loop performs: one
descriptor per distinct `locus_tag + type` key in first-seen key order,
holding the LAST matching row's data (the dictionary entry is overwritten
by each later row with the same key). -/
def specAssocGb : List GbRow → List (String × Rec)
  | [] => []
  | r :: rest =>
      (r.Locus_Tag ++ r.Typ,
        gbRecOf ((lastRowGb (r.Locus_Tag ++ r.Typ) rest).getD r)) ::
        specAssocGb (rest.filter
          (fun x => !(x.Locus_Tag ++ x.Typ == r.Locus_Tag ++ r.Typ)))
termination_by l => l.length
decreasing_by
  have := List.length_filter_le
    (fun x : GbRow => !(x.Locus_Tag ++ x.Typ == r.Locus_Tag ++ r.Typ)) rest
  simp only [List.length_cons]
  omega

theorem lastRowGb_cons (k : String) (x : GbRow) (rest : List GbRow) :
    lastRowGb k (x :: rest) =
      match lastRowGb k rest with
      | some y => some y
      | none => if x.Locus_Tag ++ x.Typ == k then some x else none := rfl

theorem lastRowGb_filter_pass (k : String) (l : List GbRow) (P : GbRow → Bool)
    (h : ∀ x, (x.Locus_Tag ++ x.Typ == k) = true → P x = true) :
    lastRowGb k (l.filter P) = lastRowGb k l := by
  induction l with
  | nil => rfl
  | cons x rest ih =>
      rw [List.filter_cons]
      cases hp : P x with
      | true =>
          rw [if_pos rfl]
          rw [lastRowGb_cons, lastRowGb_cons, ih]
      | false =>
          rw [if_neg (by simp)]
          rw [ih, lastRowGb_cons]
          cases hl : lastRowGb k rest with
          | some y => rfl
          | none =>
              have hkx : (x.Locus_Tag ++ x.Typ == k) = false := by
                cases hkx2 : (x.Locus_Tag ++ x.Typ == k) with
                | false => rfl
                | true =>
                    rw [h x hkx2] at hp
                    cases hp
              simp [hkx]

theorem foldl_upsertGb_spec (rows : List GbRow) :
    ∀ acc : List (String × Rec),
      rows.foldl upsertGb acc =
        acc.map (fun kr =>
          (kr.1, ((lastRowGb kr.1 rows).map gbRecOf).getD kr.2)) ++
        specAssocGb (rows.filter
          (fun r => !((keysOf acc).contains (r.Locus_Tag ++ r.Typ)))) := by
  induction rows with
  | nil =>
      intro acc
      have hid : (fun kr : String × Rec =>
          (kr.1, ((lastRowGb kr.1 []).map gbRecOf).getD kr.2)) =
          (fun kr => kr) := by
        funext kr
        rfl
      simp only [List.foldl_nil, List.filter_nil, specAssocGb, List.append_nil, hid]
      rw [List.map_id']
  | cons r rest ih =>
      intro acc
      rw [List.foldl_cons]
      rw [ih (upsertGb acc r)]
      cases hlk : acc.lookup (r.Locus_Tag ++ r.Typ) with
      | some v =>
          have hup : upsertGb acc r = acc.map (fun kr =>
              if kr.1 == r.Locus_Tag ++ r.Typ then
                (kr.1, (⟨r.Locus_Tag, r.Typ, r.Spans⟩ : Rec))
              else kr) := by
            unfold upsertGb
            rw [hlk]
          have hkmem := contains_keys_eq_true (r.Locus_Tag ++ r.Typ) acc v hlk
          rw [hup]
          have hkeys : keysOf (acc.map (fun kr =>
              if kr.1 == r.Locus_Tag ++ r.Typ then
                (kr.1, (⟨r.Locus_Tag, r.Typ, r.Spans⟩ : Rec))
              else kr)) = keysOf acc := by
            unfold keysOf
            rw [List.map_map]
            refine List.map_congr_left ?_
            intro kr _
            simp only [Function.comp_apply]
            split
            · rfl
            · rfl
          rw [hkeys]
          rw [List.map_map]
          rw [List.filter_cons]
          rw [show (!((keysOf acc).contains (r.Locus_Tag ++ r.Typ))) = false from by
            rw [hkmem]; rfl]
          simp only [Bool.false_eq_true, if_false]
          congr 1
          refine List.map_congr_left ?_
          intro kr _
          simp only [Function.comp_apply]
          by_cases hk : (kr.1 == r.Locus_Tag ++ r.Typ) = true
          · have hkeq : kr.1 = r.Locus_Tag ++ r.Typ := by simpa using hk
            rw [if_pos hk]
            rw [lastRowGb_cons]
            cases hlast : lastRowGb kr.1 rest with
            | some x => rfl
            | none =>
                have hkb : (r.Locus_Tag ++ r.Typ == kr.1) = true := by
                  rw [hkeq]
                  exact beq_self_eq_true _
                simp [hkb, gbRecOf]
          · rw [if_neg hk]
            rw [lastRowGb_cons]
            cases hlast : lastRowGb kr.1 rest with
            | some x => rfl
            | none =>
                have hkb : (r.Locus_Tag ++ r.Typ == kr.1) = false := by
                  cases hkb2 : (r.Locus_Tag ++ r.Typ == kr.1) with
                  | false => rfl
                  | true =>
                      have : r.Locus_Tag ++ r.Typ = kr.1 := by simpa using hkb2
                      rw [← this] at hk
                      exact absurd (beq_self_eq_true _) hk
                simp [hkb]
      | none =>
          have hup : upsertGb acc r = acc ++
              [(r.Locus_Tag ++ r.Typ, (⟨r.Locus_Tag, r.Typ, r.Spans⟩ : Rec))] := by
            unfold upsertGb
            rw [hlk]
          have hknot := contains_keys_eq_false (r.Locus_Tag ++ r.Typ) acc hlk
          rw [hup]
          have hkeys : keysOf (acc ++
              [(r.Locus_Tag ++ r.Typ, (⟨r.Locus_Tag, r.Typ, r.Spans⟩ : Rec))]) =
              keysOf acc ++ [r.Locus_Tag ++ r.Typ] := by
            unfold keysOf
            rw [List.map_append]
            rfl
          rw [hkeys]
          rw [List.map_append]
          rw [List.filter_cons]
          rw [show (!((keysOf acc).contains (r.Locus_Tag ++ r.Typ))) = true from by
            rw [hknot]; rfl]
          simp only [if_true]
          rw [specAssocGb]
          rw [List.append_assoc]
          congr 1
          · refine List.map_congr_left ?_
            intro kr hkr
            have hkb : (r.Locus_Tag ++ r.Typ == kr.1) = false := by
              cases hkb2 : (r.Locus_Tag ++ r.Typ == kr.1) with
              | false => rfl
              | true =>
                  exfalso
                  have heq : r.Locus_Tag ++ r.Typ = kr.1 := by simpa using hkb2
                  have : (keysOf acc).contains (r.Locus_Tag ++ r.Typ) = true := by
                    rw [show (keysOf acc).contains (r.Locus_Tag ++ r.Typ) =
                      List.elem (r.Locus_Tag ++ r.Typ) (keysOf acc) from rfl,
                      List.elem_eq_mem]
                    rw [decide_eq_true_eq]
                    exact List.mem_map.mpr ⟨kr, hkr, heq.symm⟩
                  rw [this] at hknot
                  cases hknot
            rw [lastRowGb_cons]
            cases hlast : lastRowGb kr.1 rest with
            | some x => rfl
            | none => simp [hkb]
          · simp only [List.map_cons, List.map_nil, List.singleton_append]
            have hpass : lastRowGb (r.Locus_Tag ++ r.Typ)
                (rest.filter (fun x =>
                  !((keysOf acc).contains (x.Locus_Tag ++ x.Typ)))) =
                lastRowGb (r.Locus_Tag ++ r.Typ) rest := by
              refine lastRowGb_filter_pass _ rest _ ?_
              intro x hx
              have heq : x.Locus_Tag ++ x.Typ = r.Locus_Tag ++ r.Typ := by
                simpa using hx
              rw [heq, hknot]
              rfl
            rw [hpass]
            congr 1
            · cases hlast : lastRowGb (r.Locus_Tag ++ r.Typ) rest with
              | some x => rfl
              | none => rfl
            · rw [List.filter_filter]
              refine congrArg specAssocGb ?_
              refine List.filter_congr ?_
              intro x _
              exact not_contains_append_singleton (keysOf acc)
                (x.Locus_Tag ++ x.Typ) (r.Locus_Tag ++ r.Typ)


theorem specAssocGff_keys (q : List GffRow) :
    (specAssocGff q).map Prod.fst = firstSeen (q.map (fun r => r.AttrID)) := by
  induction q using specAssocGff.induct with
  | case1 => simp [specAssocGff, firstSeen]
  | case2 r rest ih =>
      rw [specAssocGff, List.map_cons, ih]
      rw [List.map_cons, firstSeen]
      congr 1
      rw [List.filter_map]
      rfl

/-- C3 counterexample: two GenBank rows sharing locus_tag "X" and type
"CDS" with span lists [(0,2)] and [(5,7)]: `find_records` returns ONE
descriptor holding only the second row's spans — the first row's span is
overwritten, not appended, so the claimed within-identifier span
concatenation fails. -/
theorem C3_counterexample :
    findRecordsGenbankDb
        [⟨"L", "CDS", [(0, 2)], "X", 0, 2, 1⟩, ⟨"L", "CDS", [(5, 7)], "X", 5, 7, 1⟩]
        none (some "CDS") none none none =
      Except.ok [⟨"X", "CDS", [(5, 7)]⟩] ∧
    findRecordsGenbankDb
        [⟨"L", "CDS", [(0, 2)], "X", 0, 2, 1⟩, ⟨"L", "CDS", [(5, 7)], "X", 5, 7, 1⟩]
        none (some "CDS") none none none ≠
      Except.ok [⟨"X", "CDS", [(0, 2), (5, 7)]⟩] := by
  exact ⟨by decide, by decide⟩

/-- C3 (amended): the GFF `find_records` groups exactly as the claim
states: one descriptor per distinct `ID` in first-seen order, with the
first matching row's type and the (Start, End) pairs of all matching rows
appended in query-row order.  The GenBank `find_records` instead keys on
`locus_tag + type` (so one identifier can produce several descriptors) and
assigns the descriptor unconditionally: a repeated key keeps its
first-seen position but holds only the LAST matching row's span list. -/
theorem C3_find_records_grouping (rows : List GffRow) (grows : List GbRow)
    (sn bt idn : Option String) (st en : Option Int) :
    (findRecordsGffDb rows sn bt idn st en =
      (dbQueryGffDb rows sn bt idn st en).map
        (fun q => (specAssocGff q).map Prod.snd)) ∧
    (findRecordsGenbankDb grows sn bt idn st en =
      (dbQueryGenbankDb grows sn bt idn st en).map
        (fun q => (specAssocGb q).map Prod.snd)) ∧
    (∀ q : List GffRow,
      (specAssocGff q).map Prod.fst = firstSeen (q.map (fun r => r.AttrID))) := by
  refine ⟨?_, ?_, specAssocGff_keys⟩
  · unfold findRecordsGffDb
    cases hq : dbQueryGffDb rows sn bt idn st en with
    | error e => rfl
    | ok qrows =>
        simp only [Except.map]
        refine congrArg Except.ok ?_
        refine congrArg (fun l => List.map Prod.snd l) ?_
        rw [foldl_upsertGff_spec qrows []]
        simp only [List.map_nil, List.nil_append]
        refine congrArg specAssocGff ?_
        rw [List.filter_eq_self]
        intro x _
        rfl
  · unfold findRecordsGenbankDb
    cases hq : dbQueryGenbankDb grows sn bt idn st en with
    | error e => rfl
    | ok qrows =>
        simp only [Except.map]
        refine congrArg Except.ok ?_
        refine congrArg (fun l => List.map Prod.snd l) ?_
        rw [foldl_upsertGb_spec qrows []]
        simp only [List.map_nil, List.nil_append]
        refine congrArg specAssocGb ?_
        rw [List.filter_eq_self]
        intro x _
        rfl


end Cogent3
